import Mathlib

/-!
Verification of the vector-to-solid pipeline of this repository
(`src/app.py`, function `process_vector_to_mesh` and its serving glue).

The pipeline converts a 2D vector drawing into an extruded triangle mesh:
load → extract closed regions → extrude each region → merge → normal
repair → binary STL serialization.  The Python file delegates the
geometric kernels (extrusion, concatenation, winding repair, STL export)
to the external `trimesh` library, whose source is not part of the
repository; those kernels are modelled here from the specification's
component contracts (each such definition is marked `Modelled from the
spec:`).  The control flow of `process_vector_to_mesh` itself (dispatch on
the load result, per-path try/except with skip-and-continue, the empty
check, the outer catch-all returning None) is embedded directly from
`src/app.py`.

The file is organized as: all definitions first, then all theorems.
-/

namespace App

/-- 2D point, exact rational coordinates (source-file units). -/
abbrev Point2 := ℚ × ℚ

/-- 3D point. -/
abbrev Point3 := ℚ × ℚ × ℚ

/-- Triangular face: a triple of vertex indices. -/
abbrev Face := ℕ × ℕ × ℕ

/-- Indexed triangle mesh: vertex list plus faces referencing it. -/
structure Mesh where
  vertices : List Point3
  faces : List Face
deriving DecidableEq

/-- Occurrence count of an element in a list (explicit recursion so that
all counting lemmas below are self-contained). -/
def cnt {α : Type} [DecidableEq α] (a : α) : List α → ℕ
  | [] => 0
  | b :: l => (if b = a then 1 else 0) + cnt a l

/-- Remove the first occurrence of an element from a list. -/
def del {α : Type} [DecidableEq α] (a : α) : List α → List α
  | [] => []
  | b :: l => if b = a then l else b :: del a l

/-! ### Mesh merging (trimesh.util.concatenate, src/app.py lines 40 and 53) -/

/-- Shift all indices of a face by `K` (used when appending vertex blocks). -/
def offFace (K : ℕ) (f : Face) : Face := (K + f.1, K + f.2.1, K + f.2.2)

/-- Merge two meshes: append vertices, append faces with offset indices. -/
def concat2 (A B : Mesh) : Mesh :=
  ⟨A.vertices ++ B.vertices, A.faces ++ B.faces.map (offFace A.vertices.length)⟩

/-- Modelled from the spec: trimesh.util.concatenate — merge a list of
meshes into a single mesh with no vertex welding. -/
def concatenate (ms : List Mesh) : Mesh := ms.foldl concat2 ⟨[], []⟩

/-! ### Edges of a mesh -/

/-- The three directed edges of a face, following its winding. -/
def dirEdges (f : Face) : List (ℕ × ℕ) := [(f.1, f.2.1), (f.2.1, f.2.2), (f.2.2, f.1)]

/-- Reverse a directed edge. -/
def swapE (e : ℕ × ℕ) : ℕ × ℕ := (e.2, e.1)

/-- Normalize a directed edge into an undirected edge (smaller index first). -/
def normE (e : ℕ × ℕ) : ℕ × ℕ := if e.1 ≤ e.2 then e else (e.2, e.1)

/-- The three undirected edges of a face. -/
def uEdges (f : Face) : List (ℕ × ℕ) := (dirEdges f).map normE

/-- All undirected edges of the mesh, one triple per face (with multiplicity). -/
def meshUEdges (M : Mesh) : List (ℕ × ℕ) := M.faces.flatMap uEdges

/-- A mesh is closed (watertight) when every edge is shared by exactly two
faces: every undirected edge occurs zero or two times in the face-edge list. -/
def isClosed (M : Mesh) : Prop :=
  ∀ e, cnt e (meshUEdges M) = 0 ∨ cnt e (meshUEdges M) = 2

/-- Reverse the winding of a face. -/
def revFace (f : Face) : Face := (f.1, f.2.2, f.2.1)

/-! ### Extrusion engine (Path2D.extrude, src/app.py line 36)

Modelled from the spec: lift the polygon's 2D cap triangulation to a
bottom cap at z = 0 (winding reversed, facing −z) and a top cap at z = H
(facing +z), and connect corresponding boundary edges of bottom and top
with a ring of side-wall quads, each split into two triangles, for the
outer boundary and every hole boundary. -/

/-- Lift a 2D point to height `h`. -/
def lift (h : ℚ) (p : Point2) : Point3 := (p.1, p.2, h)

/-- The two wall triangles over one directed boundary edge; `K` is the
index offset of the top vertex copies. -/
def wallFaces (K : ℕ) (e : ℕ × ℕ) : List Face :=
  [(e.1, e.2, K + e.2), (e.1, K + e.2, K + e.1)]

/-- Cyclic successor inside a loop of `n` boundary points. -/
def succIdx (n i : ℕ) : ℕ := if i + 1 = n then 0 else i + 1

/-- The directed boundary edges of a closed loop of `n` points whose
indices start at `off`. -/
def loopD (off n : ℕ) : List (ℕ × ℕ) :=
  (List.range n).map fun i => (off + i, off + succIdx n i)

/-- Extrude a polygon to height `H`.  `pts` are all boundary points
(outer boundary first, then hole boundaries), `tris` is the cap
triangulation over those points, `bnd` is the list of directed boundary
edges (outer counter-clockwise, holes clockwise). -/
def extrude (pts : List Point2) (tris : List Face) (bnd : List (ℕ × ℕ)) (H : ℚ) : Mesh :=
  ⟨pts.map (lift 0) ++ pts.map (lift H),
   tris.map revFace ++ tris.map (offFace pts.length) ++ bnd.flatMap (wallFaces pts.length)⟩

/-- All directed edges of a cap triangulation. -/
def capD (tris : List Face) : List (ℕ × ℕ) := tris.flatMap dirEdges

/-- All undirected edges of a cap triangulation. -/
def capU (tris : List Face) : List (ℕ × ℕ) := tris.flatMap uEdges

/-- The undirected boundary edge of loop position `i` (no offset). -/
def uLoopE (n i : ℕ) : ℕ × ℕ := normE (i, succIdx n i)

/-- Validity of a cap triangulation of a simple polygon with `n` boundary
points, stated on undirected edges: indices in range and faces
nondegenerate, each boundary edge covered by exactly one cap triangle,
every other cap edge interior (shared by exactly two cap triangles). -/
def capValidU (n : ℕ) (tris : List Face) : Prop :=
  (∀ f ∈ tris, f.1 < n ∧ f.2.1 < n ∧ f.2.2 < n ∧
    f.1 ≠ f.2.1 ∧ f.2.1 ≠ f.2.2 ∧ f.2.2 ≠ f.1) ∧
  (∀ i, i < n → cnt (uLoopE n i) (capU tris) = 1) ∧
  (∀ e ∈ capU tris, (∀ i, i < n → e ≠ uLoopE n i) → cnt e (capU tris) = 2)

instance capValidU.decidable (n : ℕ) (tris : List Face) : Decidable (capValidU n tris) := by
  unfold capValidU
  infer_instance

/-- Validity of a cap triangulation of a polygon with holes, stated on
directed edges: indices in range and faces nondegenerate, no directed
edge repeated, and every directed edge matched by its reverse except the
declared boundary edges `bnd` (the triangulation's oriented boundary is
exactly `bnd`). -/
def capValidD (K : ℕ) (bnd : List (ℕ × ℕ)) (tris : List Face) : Prop :=
  (∀ f ∈ tris, f.1 < K ∧ f.2.1 < K ∧ f.2.2 < K ∧
    f.1 ≠ f.2.1 ∧ f.2.1 ≠ f.2.2 ∧ f.2.2 ≠ f.1) ∧
  (∀ e ∈ capD tris, cnt e (capD tris) = 1) ∧
  (∀ e ∈ capD tris ++ bnd ++ (capD tris ++ bnd).map swapE,
    cnt e (capD tris) + cnt (swapE e) bnd = cnt (swapE e) (capD tris) + cnt e bnd)

instance capValidD.decidable (K : ℕ) (bnd : List (ℕ × ℕ)) (tris : List Face) :
    Decidable (capValidD K bnd tris) := by
  unfold capValidD
  infer_instance

/-- The three vertex indices of a face, as a list. -/
def faceIdx (f : Face) : List ℕ := [f.1, f.2.1, f.2.2]

/-! ### Geometry: areas and signed volume -/

/-- Shift both endpoints of an edge by `K`. -/
def shiftE (K : ℕ) (e : ℕ × ℕ) : ℕ × ℕ := (K + e.1, K + e.2)

/-- The square boundary of Scenario A: (0,0)-(10,0)-(10,10)-(0,10). -/
def squarePts : List Point2 := [(0, 0), (10, 0), (10, 10), (0, 10)]

/-- A fan triangulation of the square cap (two triangles). -/
def squareTris : List Face := [(0, 1, 2), (0, 2, 3)]

/-- 2D cross product (z component of the wedge of two points as vectors). -/
def cross (p q : Point2) : ℚ := p.1 * q.2 - p.2 * q.1

/-- Determinant of three 3D points (six times the signed volume of the
tetrahedron they span with the origin). -/
def det3 (a b c : Point3) : ℚ :=
  a.1 * (b.2.1 * c.2.2 - b.2.2 * c.2.1)
  - a.2.1 * (b.1 * c.2.2 - b.2.2 * c.1)
  + a.2.2 * (b.1 * c.2.1 - b.2.1 * c.1)

/-- Vertex lookup (out-of-range indices give the origin). -/
def vertAt (M : Mesh) (i : ℕ) : Point3 := M.vertices.getD i (0, 0, 0)

/-- 2D point lookup in a point list. -/
def ptAt (pts : List Point2) (i : ℕ) : Point2 := pts.getD i (0, 0)

/-- Contribution of one face to six times the signed volume. -/
def detFace (vs : List Point3) (f : Face) : ℚ :=
  det3 (vs.getD f.1 (0, 0, 0)) (vs.getD f.2.1 (0, 0, 0)) (vs.getD f.2.2 (0, 0, 0))

/-- Six times the signed volume enclosed by a mesh (divergence theorem). -/
def signedVol6 (M : Mesh) : ℚ := (M.faces.map (detFace M.vertices)).sum

/-- The signed volume enclosed by a mesh. -/
def volume (M : Mesh) : ℚ := signedVol6 M / 6

/-- Twice the signed area of a closed 2D loop (shoelace formula). -/
def shoelace2 (pts : List Point2) : ℚ :=
  ((List.range pts.length).map fun i =>
    cross (ptAt pts i) (ptAt pts (succIdx pts.length i))).sum

/-- The cross product attached to a directed edge over a point list. -/
def crossAt (pts : List Point2) (e : ℕ × ℕ) : ℚ := cross (ptAt pts e.1) (ptAt pts e.2)

/-- Scenario B hole boundary: a 6×6 square strictly inside the outer
square, stored clockwise (negative shoelace), as holes are. -/
def holeSq : List Point2 := [(2, 2), (2, 8), (8, 8), (8, 2)]

/-- A triangulation of the annulus between `squarePts` (indices 0-3) and
`holeSq` (indices 4-7): each side quad split in two, all triangles
counter-clockwise, the hole interior left uncovered. -/
def annulusTris : List Face :=
  [(0, 1, 7), (0, 7, 4), (1, 2, 6), (1, 6, 7),
   (2, 3, 5), (2, 5, 6), (3, 0, 4), (3, 4, 5)]

/-! ### Binary STL serializer (trimesh.exchange.stl.export_stl, src/app.py line 122)

Modelled from the spec: the standard binary triangle format stores a
fixed-size 80-byte header, an explicit triangle count, and one record per
triangle holding a normal vector, the three corner coordinates and an
attribute word.  Coordinates are exact rationals here (the float32
encoding of the byte format is abstracted away, which makes the spec's
"within floating tolerance" an exact equality). -/

/-- One binary STL triangle record. -/
structure STLTri where
  normal : Point3
  v1 : Point3
  v2 : Point3
  v3 : Point3
  attr : ℕ
deriving DecidableEq

/-- A binary STL file: 80-byte header, explicit triangle count, records. -/
structure STLFile where
  header : List ℕ
  count : ℕ
  tris : List STLTri
deriving DecidableEq

/-- Unnormalized face normal (cross product of two face edge vectors). -/
def faceNormal (a b c : Point3) : Point3 :=
  ((b.2.1 - a.2.1) * (c.2.2 - a.2.2) - (b.2.2 - a.2.2) * (c.2.1 - a.2.1),
   (b.2.2 - a.2.2) * (c.1 - a.1) - (b.1 - a.1) * (c.2.2 - a.2.2),
   (b.1 - a.1) * (c.2.1 - a.2.1) - (b.2.1 - a.2.1) * (c.1 - a.1))

/-- Modelled from the spec: serialize a mesh to the binary STL layout.
An empty mesh simply yields a valid zero-triangle file. -/
def export_stl (M : Mesh) : STLFile :=
  ⟨List.replicate 80 0, M.faces.length,
   M.faces.map fun f =>
     ⟨faceNormal (vertAt M f.1) (vertAt M f.2.1) (vertAt M f.2.2),
      vertAt M f.1, vertAt M f.2.1, vertAt M f.2.2, 0⟩⟩

/-- Modelled from the spec: parse a binary STL file back into a mesh.
The format is a triangle soup, so each record contributes three fresh
vertices and one face over them. -/
def load_stl (s : STLFile) : Mesh :=
  ⟨s.tris.flatMap fun t => [t.v1, t.v2, t.v3],
   (List.range s.tris.length).map fun i => (3 * i, 3 * i + 1, 3 * i + 2)⟩

/-- The face topology of a mesh with vertex coordinates substituted in:
the list of coordinate triangles, in face order. -/
def trianglesOf (M : Mesh) : List (Point3 × Point3 × Point3) :=
  M.faces.map fun f => (vertAt M f.1, vertAt M f.2.1, vertAt M f.2.2)

/-- Structural validity of a binary STL file: fixed-size header and a
triangle count matching the records. -/
def validSTL (s : STLFile) : Prop := s.header.length = 80 ∧ s.count = s.tris.length

/-! ### Normal repair (Mesh.fix_normals, src/app.py line 56)

Modelled from the spec: for each connected component of the
face-adjacency graph, pick a seed face, propagate a consistent winding to
adjacent faces across shared edges (a face and its neighbour sharing an
edge must reference that edge in opposite traversal direction), and flip
every face of a component whose aggregate signed volume is negative. -/

/-- Do two faces share an undirected edge (face adjacency)? -/
def shareEdge (f g : Face) : Bool := (uEdges f).any fun e => decide (e ∈ uEdges g)

/-- Do two faces reference a shared edge in the same traversal direction? -/
def sameDir (f g : Face) : Bool := (dirEdges f).any fun e => decide (e ∈ dirEdges g)

/-- A face must be flipped to become winding-consistent with its
traversal parent: they share an edge in the same direction and no shared
edge in opposite directions. -/
def needFlip (p c : Face) : Bool := sameDir p c && !(sameDir p (revFace c))

/-- Face adjacency of a face list, as a relation on face indices. -/
def adjB (fs : List Face) (i j : ℕ) : Bool :=
  shareEdge (fs.getD i (0, 0, 0)) (fs.getD j (0, 0, 0))

/-- Breadth-first traversal of the face-adjacency graph.  Returns the
visit order (each entry a face index with its traversal parent) and the
updated visited set. -/
def bfs (adj : ℕ → ℕ → Bool) (n : ℕ) :
    ℕ → List (ℕ × Option ℕ) → List ℕ → List (ℕ × Option ℕ) × List ℕ
  | 0, _, vis => ([], vis)
  | _ + 1, [], vis => ([], vis)
  | fuel + 1, (c, p) :: q, vis =>
    if c ∈ vis then bfs adj n fuel q vis
    else
      let r := bfs adj n fuel
        (q ++ ((List.range n).filter (adj c)).map fun j => (j, some c)) (c :: vis)
      ((c, p) :: r.1, r.2)

/-- One spanning tree per connected component: scan all indices as seeds,
starting a traversal from each not-yet-visited one. -/
def buildTrees (adj : ℕ → ℕ → Bool) (n : ℕ) :
    List ℕ → List ℕ → List (List (ℕ × Option ℕ)) × List ℕ
  | [], vis => ([], vis)
  | s :: rest, vis =>
    if s ∈ vis then buildTrees adj n rest vis
    else
      let r := bfs adj n (n * n + n + 1) [(s, none)] vis
      let r2 := buildTrees adj n rest r.2
      (r.1 :: r2.1, r2.2)

/-- The traversal forest of a mesh's face-adjacency graph. -/
def forest (fs : List Face) : List (List (ℕ × Option ℕ)) :=
  (buildTrees (adjB fs) fs.length (List.range fs.length) []).1

/-- Propagate winding along the traversal forest: each face is flipped
when inconsistent with its (already processed) parent; seeds keep their
winding. -/
def applyForest : List (ℕ × Option ℕ) → List Face → List Face
  | [], fs => fs
  | (_, none) :: rest, fs => applyForest rest fs
  | (c, some p) :: rest, fs =>
    applyForest rest
      (if needFlip (fs.getD p (0, 0, 0)) (fs.getD c (0, 0, 0))
       then fs.set c (revFace (fs.getD c (0, 0, 0))) else fs)

/-- The face indices of one traversal tree (one connected component). -/
def treeIdxs (t : List (ℕ × Option ℕ)) : List ℕ := t.map Prod.fst

/-- Six times the aggregate signed volume of the faces at the given indices. -/
def compVol (vs : List Point3) (fs : List Face) (idxs : List ℕ) : ℚ :=
  (idxs.map fun i => detFace vs (fs.getD i (0, 0, 0))).sum

/-- Flip the faces at the given indices. -/
def flipIdxs (idxs : List ℕ) (fs : List Face) : List Face :=
  (List.range fs.length).map fun i =>
    if i ∈ idxs then revFace (fs.getD i (0, 0, 0)) else fs.getD i (0, 0, 0)

/-- Flip every component whose aggregate signed volume is negative. -/
def volFlip (vs : List Point3) (trees : List (List (ℕ × Option ℕ)))
    (fs : List Face) : List Face :=
  trees.foldl
    (fun cur t => if compVol vs cur (treeIdxs t) < 0 then flipIdxs (treeIdxs t) cur else cur)
    fs

/-- Modelled from the spec: Mesh.fix_normals (src/app.py line 56) — make
face windings outward-consistent, then flip negative-volume components. -/
def fix_normals (M : Mesh) : Mesh :=
  ⟨M.vertices,
   volFlip M.vertices (forest M.faces) (applyForest (forest M.faces).flatten M.faces)⟩

/-- Well-formed traversal order: `done` lists the indices already
finalized; each entry's index is fresh (not yet finalized and not
repeated later) and each child's parent is already finalized. -/
inductive WFL : List ℕ → List (ℕ × Option ℕ) → Prop
  | nil (done : List ℕ) : WFL done []
  | seed (done : List ℕ) (c : ℕ) (rest : List (ℕ × Option ℕ)) :
      c ∉ done → c ∉ rest.map Prod.fst → WFL (c :: done) rest →
      WFL done ((c, none) :: rest)
  | child (done : List ℕ) (c p : ℕ) (rest : List (ℕ × Option ℕ)) :
      p ∈ done → c ∉ done → c ∉ rest.map Prod.fst → WFL (c :: done) rest →
      WFL done ((c, some p) :: rest)

/-! ### Pipeline control flow (src/app.py lines 8-62) -/

/-- A 2D path geometry as seen by the extrusion loop, described by its
behaviour under Path2D.extrude — either the raised exception's message or
the resulting solid mesh(es); trimesh returns a list when the path has
several closed regions, and src/app.py line 40 concatenates it. -/
abbrev PathGeom := Except String (List Mesh)

/-- A geometry of a loaded Scene: a 2D path, or some other geometry kind
(skipped by the isinstance check at src/app.py line 32). -/
inductive SceneGeom where
  | path (g : PathGeom)
  | nonPath

/-- Result of trimesh.load as dispatched at src/app.py lines 20-28. -/
inductive LoadOutcome where
  | scene (gs : List SceneGeom)
  | path2d (g : PathGeom)
  | other

/-- The warning recorded when one path fails to extrude (src/app.py line
46): a fixed message with the exception detail interpolated.  It does not
name the failing path. -/
def warnMsg (e : String) : String :=
  "一部のパスの押し出しに失敗しました（開いた曲線の可能性があります）: " ++ e

/-- The extrusion loop of src/app.py lines 31-47: extrude each Path2D,
append the (possibly concatenated) result on success, record a warning
and continue on failure, silently skip non-path geometries.  Returns the
collected meshes and warnings. -/
def extractMeshes : List SceneGeom → List Mesh × List String
  | [] => ([], [])
  | SceneGeom.nonPath :: rest => extractMeshes rest
  | SceneGeom.path (Except.error e) :: rest =>
    ((extractMeshes rest).1, warnMsg e :: (extractMeshes rest).2)
  | SceneGeom.path (Except.ok ms) :: rest =>
    (concatenate ms :: (extractMeshes rest).1, (extractMeshes rest).2)

/-- src/app.py lines 49-58: return None when no mesh was produced,
otherwise merge all meshes and repair normals. -/
def processPaths (gs : List SceneGeom) : Option Mesh :=
  if (extractMeshes gs).1.isEmpty then none
  else some (fix_normals (concatenate (extractMeshes gs).1))

/-- The body of process_vector_to_mesh after a successful load
(src/app.py lines 17-58): dispatch on Scene / Path2D / anything else. -/
def process_vector_to_mesh (load : LoadOutcome) : Option Mesh :=
  match load with
  | LoadOutcome.other => none
  | LoadOutcome.scene gs => processPaths gs
  | LoadOutcome.path2d g => processPaths [SceneGeom.path g]

/-- Loader failure conditions.  Modelled from the spec (§4.1, §7). -/
inductive LoadError where
  | UnsupportedFormat (tag : String)
  | MalformedInput (tag : String)
deriving DecidableEq

/-- The format tags the loader recognizes (src/app.py line 85). -/
def recognized_formats : List String := ["dxf", "svg"]

/-- Modelled from the spec: the path loader (trimesh.load at src/app.py
line 15).  `parseAs` abstracts the per-format byte parser; an
unrecognized tag fails with UnsupportedFormat, bytes that do not parse as
the declared format fail with MalformedInput. -/
def load_vector (parseAs : String → List ℕ → Option LoadOutcome)
    (tag : String) (bytes : List ℕ) : Except LoadError LoadOutcome :=
  if tag ∈ recognized_formats then
    match parseAs tag bytes with
    | some r => Except.ok r
    | none => Except.error (LoadError.MalformedInput tag)
  else Except.error (LoadError.UnsupportedFormat tag)

/-- Full boundary of process_vector_to_mesh (src/app.py lines 8-62): the
body runs inside try/except, so a load failure is caught by the outer
handler and the function returns None. -/
def convert (parseAs : String → List ℕ → Option LoadOutcome)
    (tag : String) (bytes : List ℕ) : Option Mesh :=
  match load_vector parseAs tag bytes with
  | Except.error _ => none
  | Except.ok out => process_vector_to_mesh out

/-- The successfully extruded meshes of a geometry list, in order. -/
def oks (gs : List SceneGeom) : List Mesh :=
  gs.filterMap fun g => match g with
    | SceneGeom.path (Except.ok ms) => some (concatenate ms)
    | _ => none

/-- The extrusion-failure details of a geometry list, in order. -/
def errs (gs : List SceneGeom) : List String :=
  gs.filterMap fun g => match g with
    | SceneGeom.path (Except.error e) => some e
    | _ => none

/-- Positions of the geometries that fail to extrude. -/
def failIdxs (gs : List SceneGeom) : List ℕ :=
  (List.range gs.length).filter fun i =>
    match gs.getD i SceneGeom.nonPath with
    | SceneGeom.path (Except.error _) => true
    | _ => false

/-- Does a geometry extrude successfully (a closed extrudable region)? -/
def extrudable (g : SceneGeom) : Bool :=
  match g with
  | SceneGeom.path (Except.ok _) => true
  | _ => false

/-- A small valid mesh used in concrete scenarios. -/
def mBox : Mesh := ⟨[(0, 0, 0), (1, 0, 0), (0, 1, 0)], [(0, 1, 2)]⟩

/-- Scenario: a degenerate polygon first, then a good one. -/
def gsFailFirst : List SceneGeom :=
  [SceneGeom.path (Except.error "DegeneratePolygon"), SceneGeom.path (Except.ok [mBox])]

/-- Scenario: a good polygon first, then a degenerate one. -/
def gsFailSecond : List SceneGeom :=
  [SceneGeom.path (Except.ok [mBox]), SceneGeom.path (Except.error "DegeneratePolygon")]

/-- An open (non-closed) polyline: it parses as a Path2D but its
extrusion raises (src/app.py line 45 comment). -/
def openPolyline : LoadOutcome :=
  LoadOutcome.path2d (Except.error "open path cannot be extruded")

/-- Modelled from the spec: a self-intersecting figure-eight loop fails
simplicity validation in the geometry kernel with the distinct
SelfIntersectingRegion condition, surfaced as the exception detail. -/
def figureEight : PathGeom := Except.error "SelfIntersectingRegion"

/-- A byte parser that accepts nothing (concrete loader instance). -/
def parseNone : String → List ℕ → Option LoadOutcome := fun _ _ => none

/-- Scenario: a path collection with zero closed loops (one open
polyline, one non-path geometry). -/
def gsOpenOnly : List SceneGeom :=
  [SceneGeom.path (Except.error "open path cannot be extruded"), SceneGeom.nonPath]

/-! ## Theorems -/

theorem cnt_nil {α : Type} [DecidableEq α] (a : α) : cnt a ([] : List α) = 0 := rfl

theorem cnt_cons {α : Type} [DecidableEq α] (a b : α) (l : List α) :
    cnt a (b :: l) = (if b = a then 1 else 0) + cnt a l := rfl

theorem cnt_append {α : Type} [DecidableEq α] (a : α) (l m : List α) :
    cnt a (l ++ m) = cnt a l + cnt a m := by
  induction l with
  | nil => simp [cnt]
  | cons b t ih => simp [cnt, ih]; omega

theorem cnt_flatMap {α β : Type} [DecidableEq β] (a : β) (g : α → List β) (l : List α) :
    cnt a (l.flatMap g) = ((l.map fun x => cnt a (g x)).sum) := by
  induction l with
  | nil => simp [cnt]
  | cons b t ih => simp [List.flatMap_cons, cnt_append, ih]

theorem cnt_pos_iff_mem {α : Type} [DecidableEq α] (a : α) (l : List α) :
    0 < cnt a l ↔ a ∈ l := by
  induction l with
  | nil => simp [cnt]
  | cons b t ih =>
    simp only [cnt_cons, List.mem_cons]
    by_cases h : b = a
    · simp [h]
    · simp [h, Ne.symm h, ih]

theorem cnt_eq_zero_of_not_mem {α : Type} [DecidableEq α] {a : α} {l : List α}
    (h : ∀ x ∈ l, x ≠ a) : cnt a l = 0 := by
  by_contra hne
  have : a ∈ l := (cnt_pos_iff_mem a l).mp (Nat.pos_of_ne_zero hne)
  exact h a this rfl

theorem cnt_map_of_injective {α β : Type} [DecidableEq α] [DecidableEq β]
    (f : α → β) (hf : Function.Injective f) (a : α) (l : List α) :
    cnt (f a) (l.map f) = cnt a l := by
  induction l with
  | nil => simp [cnt]
  | cons b t ih =>
    simp only [List.map_cons, cnt_cons, ih]
    by_cases h : b = a
    · simp [h]
    · rw [if_neg h, if_neg (fun hc => h (hf hc))]

theorem sum_map_congr_mem {α : Type} {f g : α → ℚ} (l : List α)
    (h : ∀ x ∈ l, f x = g x) : (l.map f).sum = (l.map g).sum := by
  induction l with
  | nil => rfl
  | cons b t ih =>
    simp only [List.map_cons, List.sum_cons]
    rw [h b (by simp), ih (fun x hx => h x (by simp [hx]))]

theorem listSum_range_eq (f : ℕ → ℕ) (n : ℕ) :
    ((List.range n).map f).sum = ∑ i in Finset.range n, f i := by
  induction n with
  | zero => simp
  | succ k ih => simp [List.range_succ, Finset.sum_range_succ, ih]

/-- Sum over `range n` of a function supported at a single point. -/
theorem sum_range_single_support (g : ℕ → ℕ) (n i0 c : ℕ) (hi : i0 < n)
    (hg : ∀ i, i < n → g i = if i = i0 then c else 0) :
    ((List.range n).map g).sum = c := by
  rw [listSum_range_eq]
  rw [Finset.sum_congr rfl (fun i hi2 => hg i (Finset.mem_range.mp hi2))]
  simp [Finset.sum_ite_eq', hi]

/-- Sum over `range n` of a function supported at two distinct points. -/
theorem sum_range_double_support (g : ℕ → ℕ) (n i0 i1 c0 c1 : ℕ)
    (hi0 : i0 < n) (hi1 : i1 < n) (_hne : i0 ≠ i1)
    (hg : ∀ i, i < n → g i = (if i = i0 then c0 else 0) + (if i = i1 then c1 else 0)) :
    ((List.range n).map g).sum = c0 + c1 := by
  rw [listSum_range_eq]
  rw [Finset.sum_congr rfl (fun i hi2 => hg i (Finset.mem_range.mp hi2))]
  rw [Finset.sum_add_distrib]
  simp [Finset.sum_ite_eq', hi0, hi1]

theorem sum_range_zero_support (g : ℕ → ℕ) (n : ℕ)
    (hg : ∀ i, i < n → g i = 0) : ((List.range n).map g).sum = 0 := by
  rw [listSum_range_eq]
  exact Finset.sum_eq_zero (fun i hi2 => hg i (Finset.mem_range.mp hi2))

theorem concatenate_foldl_vertices (ms : List Mesh) (A : Mesh) :
    (ms.foldl concat2 A).vertices = A.vertices ++ (ms.map Mesh.vertices).flatten := by
  induction ms generalizing A with
  | nil => simp
  | cons m t ih => simp [List.foldl_cons, ih, concat2]

theorem concatenate_foldl_faces_length (ms : List Mesh) (A : Mesh) :
    (ms.foldl concat2 A).faces.length = A.faces.length + (ms.map fun m => m.faces.length).sum := by
  induction ms generalizing A with
  | nil => simp
  | cons m t ih => simp [List.foldl_cons, ih, concat2]; omega

/-- C3: merging N independently extruded meshes yields a mesh whose vertex
count is the sum of the inputs' vertex counts and whose face count is the
sum of the inputs' face counts; the merged vertex list is the exact
concatenation of the input vertex lists, so vertices from different input
meshes are kept distinct even when coincident in space (no welding). -/
theorem c3_concatenate_counts (ms : List Mesh) :
    (concatenate ms).vertices.length = (ms.map fun m => m.vertices.length).sum ∧
    (concatenate ms).faces.length = (ms.map fun m => m.faces.length).sum ∧
    (concatenate ms).vertices = (ms.map Mesh.vertices).flatten := by
  refine ⟨?_, ?_, ?_⟩
  · rw [concatenate, concatenate_foldl_vertices]
    simp [List.length_flatten, Function.comp_def]
  · rw [concatenate, concatenate_foldl_faces_length]; simp
  · rw [concatenate, concatenate_foldl_vertices]; simp

/-- A list is recovered by indexing over its range. -/
theorem list_eq_range_map_getD {α : Type} (l : List α) (d : α) :
    (List.range l.length).map (fun i => l.getD i d) = l := by
  apply List.ext_getElem
  · simp
  · intro i h1 h2
    simp [List.getD_eq_getElem?_getD, List.getElem?_eq_getElem h2]

/-- Indexing into the flattened vertex triples of a triangle-soup list. -/
theorem flatTriple_getD (L : List (Point3 × Point3 × Point3)) (d : Point3) :
    ∀ i, i < L.length →
      (L.flatMap fun t => [t.1, t.2.1, t.2.2]).getD (3 * i) d = (L.getD i (d, d, d)).1 ∧
      (L.flatMap fun t => [t.1, t.2.1, t.2.2]).getD (3 * i + 1) d = (L.getD i (d, d, d)).2.1 ∧
      (L.flatMap fun t => [t.1, t.2.1, t.2.2]).getD (3 * i + 2) d = (L.getD i (d, d, d)).2.2 := by
  induction L with
  | nil => intro i h; simp at h
  | cons a t ih =>
    intro i h
    match i with
    | 0 => simp
    | j + 1 =>
      have h3 : 3 * (j + 1) = 3 * j + 3 := by ring
      have h2 : j < t.length := by simpa using Nat.lt_of_succ_lt_succ (by simpa using h)
      simpa [h3, List.flatMap_cons, List.getD] using ih j h2

theorem export_stl_tris_flat (M : Mesh) :
    (export_stl M).tris.flatMap (fun t => [t.v1, t.v2, t.v3]) =
      (trianglesOf M).flatMap (fun t => [t.1, t.2.1, t.2.2]) := by
  simp [export_stl, trianglesOf, List.flatMap_map]

/-- C9: serialization round-trips — serializing a mesh to the binary STL
format and parsing back yields the same coordinate triangles (same vertex
coordinates and same face topology; exact equality in the rational model,
hence within any floating tolerance), and serializing an empty mesh
produces a valid zero-triangle file rather than failing. -/
theorem c9_stl_round_trip (M : Mesh) :
    trianglesOf (load_stl (export_stl M)) = trianglesOf M ∧
    validSTL (export_stl M) ∧
    (export_stl ⟨[], []⟩).count = 0 := by
  refine ⟨?_, ⟨by simp [export_stl], by simp [export_stl]⟩, by simp [export_stl]⟩
  have hlen : (export_stl M).tris.length = (trianglesOf M).length := by
    simp [export_stl, trianglesOf]
  have hv : (load_stl (export_stl M)).vertices =
      (trianglesOf M).flatMap (fun t => [t.1, t.2.1, t.2.2]) := by
    simp only [load_stl]
    exact export_stl_tris_flat M
  have key : ∀ i, i < (trianglesOf M).length →
      (vertAt (load_stl (export_stl M)) (3 * i),
       vertAt (load_stl (export_stl M)) (3 * i + 1),
       vertAt (load_stl (export_stl M)) (3 * i + 2)) =
      (trianglesOf M).getD i ((0,0,0), (0,0,0), (0,0,0)) := by
    intro i h
    have h3 := flatTriple_getD (trianglesOf M) (0, 0, 0) i h
    simp only [vertAt, hv]
    rw [h3.1, h3.2.1, h3.2.2]
  have hfaces : (load_stl (export_stl M)).faces =
      (List.range (trianglesOf M).length).map (fun i => (3 * i, 3 * i + 1, 3 * i + 2)) := by
    simp only [load_stl, hlen]
  show ((load_stl (export_stl M)).faces.map fun f =>
      (vertAt (load_stl (export_stl M)) f.1,
       vertAt (load_stl (export_stl M)) f.2.1,
       vertAt (load_stl (export_stl M)) f.2.2)) = trianglesOf M
  rw [hfaces, List.map_map]
  conv_rhs => rw [← list_eq_range_map_getD (trianglesOf M) ((0,0,0), (0,0,0), (0,0,0))]
  apply List.map_congr_left
  intro i hi
  exact key i (List.mem_range.mp hi)

theorem extractMeshes_eq (gs : List SceneGeom) :
    extractMeshes gs = (oks gs, (errs gs).map warnMsg) := by
  induction gs with
  | nil => rfl
  | cons g rest ih =>
    cases g with
    | nonPath => simpa [extractMeshes, oks, errs, List.filterMap_cons] using ih
    | path p =>
      cases p with
      | error e => simp [extractMeshes, oks, errs, List.filterMap_cons, ih]
      | ok ms => simp [extractMeshes, oks, errs, List.filterMap_cons, ih]

theorem mem_oks {gs : List SceneGeom} {ms : List Mesh}
    (h : SceneGeom.path (Except.ok ms) ∈ gs) : concatenate ms ∈ oks gs := by
  rw [oks, List.mem_filterMap]
  exact ⟨SceneGeom.path (Except.ok ms), h, rfl⟩

theorem mem_errs {gs : List SceneGeom} {e : String}
    (h : SceneGeom.path (Except.error e) ∈ gs) : e ∈ errs gs := by
  rw [errs, List.mem_filterMap]
  exact ⟨SceneGeom.path (Except.error e), h, rfl⟩

theorem oks_nil_of_none {gs : List SceneGeom}
    (h : ∀ g ∈ gs, extrudable g = false) : oks gs = [] := by
  induction gs with
  | nil => rfl
  | cons g rest ih =>
    have hg := h g (by simp)
    have hr := ih (fun x hx => h x (by simp [hx]))
    cases g with
    | nonPath => simpa [oks, List.filterMap_cons] using hr
    | path p =>
      cases p with
      | error e => simpa [oks, List.filterMap_cons] using hr
      | ok ms => simp [extrudable] at hg

theorem processPaths_none_of_no_extrudable (gs : List SceneGeom)
    (h : ∀ g ∈ gs, extrudable g = false) :
    (extractMeshes gs).1 = [] ∧ processPaths gs = none := by
  have h1 : (extractMeshes gs).1 = [] := by
    rw [extractMeshes_eq]; exact oks_nil_of_none h
  exact ⟨h1, by simp [processPaths, h1]⟩

/-- C5 counterexample: the claim says the pipeline "records a warning
identifying" the failing polygon, but the warning of src/app.py line 46
interpolates only the exception detail, never which polygon failed.  Two
inputs that differ exactly in which polygon is the degenerate one produce
identical warning lists, so the warning cannot identify the failing
polygon. -/
theorem c5_warning_not_identifying :
    (extractMeshes gsFailFirst).2 = (extractMeshes gsFailSecond).2 ∧
    failIdxs gsFailFirst = [0] ∧ failIdxs gsFailSecond = [1] ∧
    gsFailFirst ≠ gsFailSecond := by
  refine ⟨rfl, rfl, rfl, ?_⟩
  intro h
  simp [gsFailFirst, gsFailSecond] at h

/-- C5 amended: for every request whose polygon list contains a polygon
failing extrusion and one that succeeds, the pipeline skips the failing
polygon, records a warning carrying the failure detail (without naming
which polygon failed), and still produces output from the remaining
polygons rather than aborting the whole request. -/
theorem c5_failures_isolated (gs : List SceneGeom) (e : String) (ms : List Mesh)
    (hfail : SceneGeom.path (Except.error e) ∈ gs)
    (hok : SceneGeom.path (Except.ok ms) ∈ gs) :
    warnMsg e ∈ (extractMeshes gs).2 ∧
    (extractMeshes gs).1 = oks gs ∧
    processPaths gs = some (fix_normals (concatenate (oks gs))) := by
  have he := extractMeshes_eq gs
  refine ⟨?_, by rw [he], ?_⟩
  · rw [he]; exact List.mem_map_of_mem _ (mem_errs hfail)
  · have hne : oks gs ≠ [] := by
      intro hnil
      have hm := mem_oks hok
      rw [hnil] at hm
      simp at hm
    simp [processPaths, he, List.isEmpty_iff, hne]

theorem c5_failures_isolated_witness :
    warnMsg "DegeneratePolygon" ∈ (extractMeshes gsFailFirst).2 ∧
    (extractMeshes gsFailFirst).1 = oks gsFailFirst ∧
    processPaths gsFailFirst = some (fix_normals (concatenate (oks gsFailFirst))) :=
  c5_failures_isolated gsFailFirst "DegeneratePolygon" [mBox]
    (by simp [gsFailFirst]) (by simp [gsFailFirst])

/-- C6: the loader's two fatal parse-level failures are distinguished —
an unrecognized format tag fails with UnsupportedFormat, bytes that do
not parse as a recognized declared format fail with MalformedInput, the
two conditions are distinct, and either failure aborts the request
immediately (the caller returns None). -/
theorem c6_loader_conditions (parseAs : String → List ℕ → Option LoadOutcome)
    (tag : String) (bytes : List ℕ) :
    (tag ∉ recognized_formats →
      load_vector parseAs tag bytes = Except.error (LoadError.UnsupportedFormat tag) ∧
      convert parseAs tag bytes = none) ∧
    (tag ∈ recognized_formats → parseAs tag bytes = none →
      load_vector parseAs tag bytes = Except.error (LoadError.MalformedInput tag) ∧
      convert parseAs tag bytes = none) ∧
    (∀ t d, LoadError.UnsupportedFormat t ≠ LoadError.MalformedInput d) := by
  refine ⟨?_, ?_, fun t d h => LoadError.noConfusion h⟩
  · intro h
    have hl : load_vector parseAs tag bytes =
        Except.error (LoadError.UnsupportedFormat tag) := by
      simp [load_vector, h]
    exact ⟨hl, by simp [convert, hl]⟩
  · intro h hp
    have hl : load_vector parseAs tag bytes =
        Except.error (LoadError.MalformedInput tag) := by
      simp [load_vector, h, hp]
    exact ⟨hl, by simp [convert, hl]⟩

theorem c6_loader_conditions_witness :
    (load_vector parseNone "png" [] = Except.error (LoadError.UnsupportedFormat "png") ∧
     convert parseNone "png" [] = none) ∧
    (load_vector parseNone "dxf" [] = Except.error (LoadError.MalformedInput "dxf") ∧
     convert parseNone "dxf" [] = none) :=
  ⟨(c6_loader_conditions parseNone "png" []).1 (by decide),
   (c6_loader_conditions parseNone "dxf" []).2.1 (by decide) rfl⟩

/-- C7 counterexample: the claim says an input with zero closed loops
yields the distinct NoClosedRegion condition with a flag letting callers
choose between two failure messages.  In src/app.py the pipeline returns
the same bare None for an open polyline (lines 49-50) as for an
unrecognized load result (line 28), so callers receive no distinguishing
flag — the outputs of the two failure kinds are identical. -/
theorem c7_no_flag_counterexample :
    process_vector_to_mesh openPolyline = none ∧
    process_vector_to_mesh LoadOutcome.other = none ∧
    process_vector_to_mesh openPolyline = process_vector_to_mesh LoadOutcome.other ∧
    (extractMeshes [SceneGeom.path (Except.error "open path cannot be extruded")]).1 = [] :=
  ⟨rfl, rfl, rfl, rfl⟩

/-- C7 amended: an input whose path collections contain zero closed
loops produces an empty mesh list and the pipeline returns None — with
no distinct NoClosedRegion condition or flag (the same None as other
failures). -/
theorem c7_no_closed_region (gs : List SceneGeom)
    (h : ∀ g ∈ gs, extrudable g = false) :
    (extractMeshes gs).1 = [] ∧
    process_vector_to_mesh (LoadOutcome.scene gs) = none := by
  have hp := processPaths_none_of_no_extrudable gs h
  exact ⟨hp.1, by simp [process_vector_to_mesh, hp.2]⟩

theorem c7_no_closed_region_witness :
    (extractMeshes gsOpenOnly).1 = [] ∧
    process_vector_to_mesh (LoadOutcome.scene gsOpenOnly) = none :=
  c7_no_closed_region gsOpenOnly (by decide)

/-- C8: a self-intersecting figure-eight loop is rejected by the
simplicity validation (modelled from the spec as the distinct
SelfIntersectingRegion condition raised inside the kernel), no mesh is
produced for that loop and no repair is attempted — the loop contributes
nothing but a warning that carries the distinct condition; a request
consisting only of that loop fails (returns None). -/
theorem c8_self_intersecting (gs : List SceneGeom)
    (hmem : SceneGeom.path figureEight ∈ gs) :
    (extractMeshes gs).1 = oks gs ∧
    warnMsg "SelfIntersectingRegion" ∈ (extractMeshes gs).2 ∧
    (extractMeshes [SceneGeom.path figureEight]).1 = [] ∧
    process_vector_to_mesh (LoadOutcome.path2d figureEight) = none ∧
    warnMsg "SelfIntersectingRegion" ≠ warnMsg "DegeneratePolygon" := by
  refine ⟨by rw [extractMeshes_eq], ?_, rfl, rfl, by decide⟩
  rw [extractMeshes_eq]
  exact List.mem_map_of_mem _ (mem_errs hmem)

theorem c8_self_intersecting_witness :
    (extractMeshes [SceneGeom.path figureEight]).1 = oks [SceneGeom.path figureEight] ∧
    warnMsg "SelfIntersectingRegion" ∈ (extractMeshes [SceneGeom.path figureEight]).2 ∧
    (extractMeshes [SceneGeom.path figureEight]).1 = [] ∧
    process_vector_to_mesh (LoadOutcome.path2d figureEight) = none ∧
    warnMsg "SelfIntersectingRegion" ≠ warnMsg "DegeneratePolygon" :=
  c8_self_intersecting [SceneGeom.path figureEight] (by simp)

/-- C10: process_vector_to_mesh is total at its boundary — every input
yields either a mesh or None, never a propagated exception: a load
failure (caught by the outer handler), a load result that is neither a
scene nor a 2D path, an extrusion failure on every path, and an empty
geometry list all yield None. -/
theorem c10_boundary_total (parseAs : String → List ℕ → Option LoadOutcome)
    (tag : String) (bytes : List ℕ) (err : LoadError) (gs : List SceneGeom)
    (hload : load_vector parseAs tag bytes = Except.error err)
    (hfailall : ∀ g ∈ gs, extrudable g = false) :
    convert parseAs tag bytes = none ∧
    process_vector_to_mesh LoadOutcome.other = none ∧
    process_vector_to_mesh (LoadOutcome.scene gs) = none ∧
    process_vector_to_mesh (LoadOutcome.scene []) = none ∧
    (∀ lo : LoadOutcome,
      process_vector_to_mesh lo = none ∨ ∃ m, process_vector_to_mesh lo = some m) := by
  refine ⟨by simp [convert, hload], rfl, ?_, rfl, ?_⟩
  · have hp := processPaths_none_of_no_extrudable gs hfailall
    simp [process_vector_to_mesh, hp.2]
  · intro lo
    cases h : process_vector_to_mesh lo with
    | none => exact Or.inl rfl
    | some m => exact Or.inr ⟨m, rfl⟩

theorem c10_boundary_total_witness :
    convert parseNone "dxf" [] = none ∧
    process_vector_to_mesh LoadOutcome.other = none ∧
    process_vector_to_mesh (LoadOutcome.scene gsOpenOnly) = none ∧
    process_vector_to_mesh (LoadOutcome.scene []) = none ∧
    (∀ lo : LoadOutcome,
      process_vector_to_mesh lo = none ∨ ∃ m, process_vector_to_mesh lo = some m) :=
  c10_boundary_total parseNone "dxf" [] (LoadError.MalformedInput "dxf") gsOpenOnly
    rfl (by decide)

/-! ### Edge bookkeeping for the extrusion theorems -/

theorem normE_swap (a b : ℕ) : normE (a, b) = normE (b, a) := by
  simp only [normE]
  by_cases h1 : a ≤ b <;> by_cases h2 : b ≤ a <;> simp [h1, h2, Prod.mk.injEq] <;> omega

theorem normE_le {a b : ℕ} (h : a ≤ b) : normE (a, b) = (a, b) := by
  simp [normE, h]

theorem normE_gt {a b : ℕ} (h : b < a) : normE (a, b) = (b, a) := by
  simp only [normE]
  rw [if_neg (by omega)]

theorem normE_fst (a b : ℕ) : (normE (a, b)).1 = min a b := by
  simp only [normE]; split <;> omega

theorem normE_snd (a b : ℕ) : (normE (a, b)).2 = max a b := by
  simp only [normE]; split <;> omega

theorem normE_norm (e : ℕ × ℕ) : (normE e).1 ≤ (normE e).2 := by
  simp only [normE]; split <;> omega

theorem normE_shift (K a b : ℕ) : normE (K + a, K + b) = shiftE K (normE (a, b)) := by
  by_cases h : a ≤ b
  · rw [normE_le h, normE_le (by omega)]; rfl
  · rw [normE_gt (by omega), normE_gt (by omega)]; rfl

theorem shiftE_injective (K : ℕ) : Function.Injective (shiftE K) := by
  intro x y h
  simp only [shiftE, Prod.mk.injEq] at h
  obtain ⟨h1, h2⟩ := h
  exact Prod.ext (by omega) (by omega)

theorem cnt_uEdges_revFace (e : ℕ × ℕ) (f : Face) :
    cnt e (uEdges (revFace f)) = cnt e (uEdges f) := by
  obtain ⟨a, b, c⟩ := f
  simp only [uEdges, revFace, dirEdges, List.map_cons, List.map_nil, cnt]
  simp only [normE_swap a c, normE_swap c b, normE_swap b a]
  ring

theorem uEdges_offFace (K : ℕ) (f : Face) :
    uEdges (offFace K f) = (uEdges f).map (shiftE K) := by
  obtain ⟨a, b, c⟩ := f
  simp only [uEdges, offFace, dirEdges, List.map_cons, List.map_nil]
  rw [normE_shift, normE_shift, normE_shift]

theorem cnt_bottom_cap (e : ℕ × ℕ) (tris : List Face) :
    cnt e ((tris.map revFace).flatMap uEdges) = cnt e (capU tris) := by
  induction tris with
  | nil => rfl
  | cons f t ih =>
    simp only [capU, List.map_cons, List.flatMap_cons, cnt_append] at ih ⊢
    rw [cnt_uEdges_revFace, ih]

theorem top_cap_eq_map (K : ℕ) (tris : List Face) :
    (tris.map (offFace K)).flatMap uEdges = (capU tris).map (shiftE K) := by
  induction tris with
  | nil => rfl
  | cons f t ih =>
    simp only [capU, List.map_cons, List.flatMap_cons, List.map_append] at ih ⊢
    rw [uEdges_offFace, ih]

theorem flatMap_flatMap {α β γ : Type} (l : List α) (f : α → List β) (g : β → List γ) :
    (l.flatMap f).flatMap g = l.flatMap fun x => (f x).flatMap g := by
  induction l with
  | nil => rfl
  | cons a t ih => simp [List.flatMap_cons, List.flatMap_append, ih]

theorem cnt_shift_zero {K : ℕ} {e : ℕ × ℕ} (l : List (ℕ × ℕ))
    (h : e.1 < K ∨ e.2 < K) : cnt e (l.map (shiftE K)) = 0 := by
  apply cnt_eq_zero_of_not_mem
  intro x hx
  rw [List.mem_map] at hx
  obtain ⟨y, _, rfl⟩ := hx
  intro hc
  have h1 : K + y.1 = e.1 := by rw [← hc]; rfl
  have h2 : K + y.2 = e.2 := by rw [← hc]; rfl
  omega

theorem capU_bounded {n : ℕ} {tris : List Face}
    (ha : ∀ f ∈ tris, f.1 < n ∧ f.2.1 < n ∧ f.2.2 < n ∧
      f.1 ≠ f.2.1 ∧ f.2.1 ≠ f.2.2 ∧ f.2.2 ≠ f.1) :
    ∀ x ∈ capU tris, x.1 < n ∧ x.2 < n ∧ x.1 < x.2 := by
  intro x hx
  rw [capU, List.mem_flatMap] at hx
  obtain ⟨f, hf, hx⟩ := hx
  obtain ⟨a, b, c⟩ := f
  have h := ha _ hf
  simp only at h
  simp only [uEdges, dirEdges, List.map_cons, List.map_nil, List.mem_cons,
    List.not_mem_nil, or_false] at hx
  rcases hx with h1 | h1 | h1 <;> rw [h1] <;> rw [normE_fst, normE_snd] <;> omega

/-- Cyclic successor stays in range. -/
theorem succIdx_lt {n : ℕ} (hn : 0 < n) {i : ℕ} (hi : i < n) : succIdx n i < n := by
  unfold succIdx; split <;> omega

theorem succIdx_ne {n : ℕ} (hn : 3 ≤ n) {i : ℕ} (hi : i < n) : succIdx n i ≠ i := by
  unfold succIdx; split <;> omega

theorem succIdx_inj {n : ℕ} {i j : ℕ} (hi : i < n) (hj : j < n)
    (h : succIdx n i = succIdx n j) : i = j := by
  unfold succIdx at h; split at h <;> split at h <;> omega

/-- Explicit form of the undirected boundary edge. -/
theorem uLoopE_eq {n : ℕ} (hn : 3 ≤ n) {i : ℕ} (hi : i < n) :
    uLoopE n i = if i + 1 = n then (0, i) else (i, i + 1) := by
  unfold uLoopE succIdx
  by_cases h : i + 1 = n
  · rw [if_pos h, if_pos h, normE_gt (by omega)]
  · rw [if_neg h, if_neg h, normE_le (by omega)]

theorem uLoopE_inj {n : ℕ} (hn : 3 ≤ n) {i j : ℕ} (hi : i < n) (hj : j < n)
    (h : uLoopE n i = uLoopE n j) : i = j := by
  rw [uLoopE_eq hn hi, uLoopE_eq hn hj] at h
  by_cases h1 : i + 1 = n <;> by_cases h2 : j + 1 = n <;>
    simp only [h1, h2, if_pos, if_neg, if_true, if_false, Prod.mk.injEq] at h <;> omega

theorem loopD_zero (n : ℕ) : loopD 0 n = (List.range n).map fun i => (i, succIdx n i) := by
  simp [loopD]

/-- The six undirected edges of the wall quad over one boundary edge. -/
theorem wallU6 (K u v : ℕ) (hu : u < K) (hv : v < K) :
    (wallFaces K (u, v)).flatMap uEdges =
      [normE (u, v), (v, K + v), (u, K + v), (u, K + v),
       shiftE K (normE (u, v)), (u, K + u)] := by
  simp only [wallFaces, uEdges, dirEdges, List.flatMap_cons, List.flatMap_nil,
    List.map_cons, List.map_nil, List.append_nil, List.cons_append, List.nil_append]
  rw [normE_le (show v ≤ K + v by omega), normE_gt (show u < K + v by omega),
    normE_le (show u ≤ K + v by omega), normE_shift, normE_swap v u,
    normE_gt (show u < K + u by omega)]

/-- Non-normalized pairs never occur among mesh edges. -/
theorem cnt_meshUEdges_non_normalized (M : Mesh) {e : ℕ × ℕ} (h : ¬e.1 ≤ e.2) :
    cnt e (meshUEdges M) = 0 := by
  apply cnt_eq_zero_of_not_mem
  intro u hu
  rw [meshUEdges, List.mem_flatMap] at hu
  obtain ⟨f, _, hu⟩ := hu
  rw [uEdges, List.mem_map] at hu
  obtain ⟨d, _, rfl⟩ := hu
  intro hc
  have hnn := normE_norm d
  rw [hc] at hnn
  exact h hnn

/-- The extruded prism over a validly triangulated simple polygon is
closed: every undirected edge is shared by exactly two faces. -/
theorem extrude_closed (n : ℕ) (pts : List Point2) (tris : List Face) (H : ℚ)
    (hn : 3 ≤ n) (hpts : pts.length = n) (hval : capValidU n tris) :
    isClosed (extrude pts tris (loopD 0 n) H) := by
  obtain ⟨ha, hb, hc⟩ := hval
  have hbound := capU_bounded ha
  intro e
  obtain ⟨x, y⟩ := e
  by_cases hxy : x ≤ y
  case neg =>
    left
    exact cnt_meshUEdges_non_normalized _ hxy
  have hsplit : meshUEdges (extrude pts tris (loopD 0 n) H) =
      (tris.map revFace).flatMap uEdges ++
      ((capU tris).map (shiftE n) ++
        (loopD 0 n).flatMap fun be => (wallFaces n be).flatMap uEdges) := by
    show (tris.map revFace ++ tris.map (offFace pts.length) ++
        (loopD 0 n).flatMap (wallFaces pts.length)).flatMap uEdges = _
    rw [hpts, List.append_assoc, List.flatMap_append, List.flatMap_append,
      top_cap_eq_map, flatMap_flatMap]
  rw [hsplit, cnt_append, cnt_append, cnt_bottom_cap]
  have hW : cnt (x, y) ((loopD 0 n).flatMap fun be => (wallFaces n be).flatMap uEdges) =
      ((List.range n).map fun i =>
        cnt (x, y) ((wallFaces n (i, succIdx n i)).flatMap uEdges)).sum := by
    rw [loopD_zero, cnt_flatMap, List.map_map]
    rfl
  rw [hW]
  rcases Nat.lt_or_ge y n with hyn | hyn
  · -- Case A: a bottom-layer edge (both endpoints below n)
    have hT0 : cnt (x, y) ((capU tris).map (shiftE n)) = 0 :=
      cnt_shift_zero _ (Or.inr hyn)
    have hg : ∀ i, i < n →
        cnt (x, y) ((wallFaces n (i, succIdx n i)).flatMap uEdges) =
        (if uLoopE n i = (x, y) then 1 else 0) := by
      intro i hi
      have hsi := succIdx_lt (by omega) hi
      rw [wallU6 n i (succIdx n i) hi hsi]
      rw [cnt_cons, cnt_cons, cnt_cons, cnt_cons, cnt_cons, cnt_cons, cnt_nil]
      rw [if_neg (show ¬((succIdx n i, n + succIdx n i) = (x, y)) by
            simp only [Prod.mk.injEq, not_and]; intro _; omega),
          if_neg (show ¬((i, n + succIdx n i) = (x, y)) by
            simp only [Prod.mk.injEq, not_and]; intro _; omega),
          if_neg (show ¬(shiftE n (normE (i, succIdx n i)) = (x, y)) by
            intro hcc
            have h5a : n + (normE (i, succIdx n i)).1 = x := congrArg Prod.fst hcc
            omega),
          if_neg (show ¬((i, n + i) = (x, y)) by
            simp only [Prod.mk.injEq, not_and]; intro _; omega)]
      simp [uLoopE]
    by_cases hA : ∃ i0, i0 < n ∧ uLoopE n i0 = (x, y)
    · obtain ⟨i0, hi0, hei⟩ := hA
      right
      have hWs : ((List.range n).map fun i =>
          cnt (x, y) ((wallFaces n (i, succIdx n i)).flatMap uEdges)).sum = 1 := by
        refine sum_range_single_support _ n i0 1 hi0 ?_
        intro i hi
        rw [hg i hi]
        have hiff : (uLoopE n i = (x, y)) ↔ (i = i0) := by
          constructor
          · intro hcc; exact uLoopE_inj hn hi hi0 (by rw [hcc, hei])
          · intro hcc; rw [hcc, hei]
        simp [hiff]
      have hBv := hb i0 hi0
      rw [hei] at hBv
      rw [hBv, hT0, hWs]
    · push_neg at hA
      have hWs : ((List.range n).map fun i =>
          cnt (x, y) ((wallFaces n (i, succIdx n i)).flatMap uEdges)).sum = 0 := by
        refine sum_range_zero_support _ n ?_
        intro i hi
        rw [hg i hi, if_neg (hA i hi)]
      rw [hWs, hT0]
      by_cases hmem : (x, y) ∈ capU tris
      · right
        rw [hc _ hmem (fun i hi => (hA i hi).symm)]
      · left
        have hz : cnt (x, y) (capU tris) = 0 :=
          Nat.eq_zero_of_not_pos (fun hpos => hmem ((cnt_pos_iff_mem _ _).mp hpos))
        rw [hz]
  rcases Nat.lt_or_ge x n with hxn | hxn
  · -- Case C: a wall edge (one endpoint below n, one at or above n)
    have hB0 : cnt (x, y) (capU tris) = 0 := by
      apply cnt_eq_zero_of_not_mem
      intro u hu hcc
      have hb3 := hbound u hu
      rw [hcc] at hb3
      have h2 : y < n := hb3.2.1
      omega
    have hT0 : cnt (x, y) ((capU tris).map (shiftE n)) = 0 :=
      cnt_shift_zero _ (Or.inl hxn)
    rw [hB0, hT0]
    rcases Nat.lt_or_ge y (2 * n) with hy2 | hy2
    · -- y = n + v with v < n
      by_cases hvx : y - n = x
      · -- vertical wall edge (x, n + x)
        by_cases hx0 : x = 0
        · -- predecessor of 0 along the loop is n - 1
          have hg : ∀ i, i < n →
              cnt (x, y) ((wallFaces n (i, succIdx n i)).flatMap uEdges) =
              (if i = n - 1 then 1 else 0) + (if i = x then 1 else 0) := by
            intro i hi
            have hsi := succIdx_lt (by omega) hi
            have hne := succIdx_ne hn hi
            rw [wallU6 n i (succIdx n i) hi hsi]
            rw [cnt_cons, cnt_cons, cnt_cons, cnt_cons, cnt_cons, cnt_cons, cnt_nil]
            rw [if_neg (show ¬(normE (i, succIdx n i) = (x, y)) by
                  intro hcc
                  have h1a : (normE (i, succIdx n i)).2 = y := congrArg Prod.snd hcc
                  rw [normE_snd] at h1a
                  omega),
                if_neg (show ¬(shiftE n (normE (i, succIdx n i)) = (x, y)) by
                  intro hcc
                  have h5a : n + (normE (i, succIdx n i)).1 = x := congrArg Prod.fst hcc
                  omega),
                if_neg (show ¬((i, n + succIdx n i) = (x, y)) by
                  simp only [Prod.mk.injEq, not_and]; intro hc1; omega)]
            have he2 : ((succIdx n i, n + succIdx n i) = (x, y)) ↔ (i = n - 1) := by
              constructor
              · intro hcc
                have hc1 : succIdx n i = x := (Prod.mk.injEq _ _ _ _).mp hcc |>.1
                unfold succIdx at hc1
                split at hc1 <;> omega
              · intro hcc
                have hsx : succIdx n i = x := by
                  subst hcc; unfold succIdx; split <;> omega
                simp only [Prod.mk.injEq]
                constructor
                · exact hsx
                · rw [hsx]; omega
            have he6 : (((i : ℕ), n + i) = (x, y)) ↔ (i = x) := by
              simp only [Prod.mk.injEq]
              constructor
              · intro hcc; exact hcc.1
              · intro hcc; omega
            simp only [he2, he6]
            omega
          right
          have hWs : ((List.range n).map fun i =>
              cnt (x, y) ((wallFaces n (i, succIdx n i)).flatMap uEdges)).sum = 2 := by
            refine sum_range_double_support _ n (n - 1) x 1 1 (by omega) (by omega)
              (by omega) hg
          rw [hWs]
        · -- predecessor of x along the loop is x - 1
          have hg : ∀ i, i < n →
              cnt (x, y) ((wallFaces n (i, succIdx n i)).flatMap uEdges) =
              (if i = x - 1 then 1 else 0) + (if i = x then 1 else 0) := by
            intro i hi
            have hsi := succIdx_lt (by omega) hi
            have hne := succIdx_ne hn hi
            rw [wallU6 n i (succIdx n i) hi hsi]
            rw [cnt_cons, cnt_cons, cnt_cons, cnt_cons, cnt_cons, cnt_cons, cnt_nil]
            rw [if_neg (show ¬(normE (i, succIdx n i) = (x, y)) by
                  intro hcc
                  have h1a : (normE (i, succIdx n i)).2 = y := congrArg Prod.snd hcc
                  rw [normE_snd] at h1a
                  omega),
                if_neg (show ¬(shiftE n (normE (i, succIdx n i)) = (x, y)) by
                  intro hcc
                  have h5a : n + (normE (i, succIdx n i)).1 = x := congrArg Prod.fst hcc
                  omega),
                if_neg (show ¬((i, n + succIdx n i) = (x, y)) by
                  simp only [Prod.mk.injEq, not_and]; intro hc1; omega)]
            have he2 : ((succIdx n i, n + succIdx n i) = (x, y)) ↔ (i = x - 1) := by
              constructor
              · intro hcc
                have hc1 : succIdx n i = x := (Prod.mk.injEq _ _ _ _).mp hcc |>.1
                unfold succIdx at hc1
                split at hc1 <;> omega
              · intro hcc
                have hsx : succIdx n i = x := by
                  subst hcc; unfold succIdx; split <;> omega
                simp only [Prod.mk.injEq]
                constructor
                · exact hsx
                · rw [hsx]; omega
            have he6 : (((i : ℕ), n + i) = (x, y)) ↔ (i = x) := by
              simp only [Prod.mk.injEq]
              constructor
              · intro hcc; exact hcc.1
              · intro hcc; omega
            simp only [he2, he6]
            omega
          right
          have hWs : ((List.range n).map fun i =>
              cnt (x, y) ((wallFaces n (i, succIdx n i)).flatMap uEdges)).sum = 2 := by
            refine sum_range_double_support _ n (x - 1) x 1 1 (by omega) (by omega)
              (by omega) hg
          rw [hWs]
      · -- diagonal wall edge (x, n + v) with v ≠ x
        by_cases hd : succIdx n x = y - n
        · have hg : ∀ i, i < n →
              cnt (x, y) ((wallFaces n (i, succIdx n i)).flatMap uEdges) =
              (if i = x then 2 else 0) := by
            intro i hi
            have hsi := succIdx_lt (by omega) hi
            have hne := succIdx_ne hn hi
            rw [wallU6 n i (succIdx n i) hi hsi]
            rw [cnt_cons, cnt_cons, cnt_cons, cnt_cons, cnt_cons, cnt_cons, cnt_nil]
            rw [if_neg (show ¬(normE (i, succIdx n i) = (x, y)) by
                  intro hcc
                  have h1a : (normE (i, succIdx n i)).2 = y := congrArg Prod.snd hcc
                  rw [normE_snd] at h1a
                  omega),
                if_neg (show ¬(shiftE n (normE (i, succIdx n i)) = (x, y)) by
                  intro hcc
                  have h5a : n + (normE (i, succIdx n i)).1 = x := congrArg Prod.fst hcc
                  omega),
                if_neg (show ¬((succIdx n i, n + succIdx n i) = (x, y)) by
                  simp only [Prod.mk.injEq, not_and]; intro hc1; omega),
                if_neg (show ¬(((i : ℕ), n + i) = (x, y)) by
                  simp only [Prod.mk.injEq, not_and]; intro hc1; omega)]
            have he3 : (((i : ℕ), n + succIdx n i) = (x, y)) ↔ (i = x) := by
              simp only [Prod.mk.injEq]
              constructor
              · intro hcc; exact hcc.1
              · intro hcc
                refine ⟨hcc, ?_⟩
                rw [hcc, hd]
                omega
            simp only [he3]
            split <;> omega
          right
          have hWs : ((List.range n).map fun i =>
              cnt (x, y) ((wallFaces n (i, succIdx n i)).flatMap uEdges)).sum = 2 := by
            refine sum_range_single_support _ n x 2 hxn hg
          rw [hWs]
        · have hg : ∀ i, i < n →
              cnt (x, y) ((wallFaces n (i, succIdx n i)).flatMap uEdges) = 0 := by
            intro i hi
            have hsi := succIdx_lt (by omega) hi
            have hne := succIdx_ne hn hi
            rw [wallU6 n i (succIdx n i) hi hsi]
            rw [cnt_cons, cnt_cons, cnt_cons, cnt_cons, cnt_cons, cnt_cons, cnt_nil]
            rw [if_neg (show ¬(normE (i, succIdx n i) = (x, y)) by
                  intro hcc
                  have h1a : (normE (i, succIdx n i)).2 = y := congrArg Prod.snd hcc
                  rw [normE_snd] at h1a
                  omega),
                if_neg (show ¬(shiftE n (normE (i, succIdx n i)) = (x, y)) by
                  intro hcc
                  have h5a : n + (normE (i, succIdx n i)).1 = x := congrArg Prod.fst hcc
                  omega),
                if_neg (show ¬((succIdx n i, n + succIdx n i) = (x, y)) by
                  simp only [Prod.mk.injEq, not_and]; intro hc1; omega),
                if_neg (show ¬(((i : ℕ), n + i) = (x, y)) by
                  simp only [Prod.mk.injEq, not_and]; intro hc1; omega),
                if_neg (show ¬(((i : ℕ), n + succIdx n i) = (x, y)) by
                  simp only [Prod.mk.injEq, not_and]
                  intro hc1
                  intro hc2
                  have : succIdx n x = y - n := by rw [← hc1]; omega
                  exact hd this)]
          left
          have hWs : ((List.range n).map fun i =>
              cnt (x, y) ((wallFaces n (i, succIdx n i)).flatMap uEdges)).sum = 0 :=
            sum_range_zero_support _ n hg
          rw [hWs]
    · -- y ≥ 2n: no wall reaches that high
      left
      have hg : ∀ i, i < n →
          cnt (x, y) ((wallFaces n (i, succIdx n i)).flatMap uEdges) = 0 := by
        intro i hi
        have hsi := succIdx_lt (by omega) hi
        rw [wallU6 n i (succIdx n i) hi hsi]
        rw [cnt_cons, cnt_cons, cnt_cons, cnt_cons, cnt_cons, cnt_cons, cnt_nil]
        rw [if_neg (show ¬(normE (i, succIdx n i) = (x, y)) by
              intro hcc
              have h1a : (normE (i, succIdx n i)).2 = y := congrArg Prod.snd hcc
              rw [normE_snd] at h1a
              omega),
            if_neg (show ¬(shiftE n (normE (i, succIdx n i)) = (x, y)) by
              intro hcc
              have h5a : n + (normE (i, succIdx n i)).2 = y := congrArg Prod.snd hcc
              rw [normE_snd] at h5a
              omega),
            if_neg (show ¬((succIdx n i, n + succIdx n i) = (x, y)) by
              simp only [Prod.mk.injEq, not_and]; intro hc1; omega),
            if_neg (show ¬(((i : ℕ), n + i) = (x, y)) by
              simp only [Prod.mk.injEq, not_and]; intro hc1; omega),
            if_neg (show ¬(((i : ℕ), n + succIdx n i) = (x, y)) by
              simp only [Prod.mk.injEq, not_and]; intro hc1; omega)]
      have hWs : ((List.range n).map fun i =>
          cnt (x, y) ((wallFaces n (i, succIdx n i)).flatMap uEdges)).sum = 0 :=
        sum_range_zero_support _ n hg
      rw [hWs]
  · -- Case B: a top-layer edge (both endpoints at or above n)
    have hB0 : cnt (x, y) (capU tris) = 0 := by
      apply cnt_eq_zero_of_not_mem
      intro u hu hcc
      have hb3 := hbound u hu
      rw [hcc] at hb3
      have h1 : x < n := hb3.1
      omega
    have he0 : ((x : ℕ), y) = shiftE n (x - n, y - n) := by
      simp only [shiftE, Prod.mk.injEq]
      omega
    have hT2 : cnt (x, y) ((capU tris).map (shiftE n)) = cnt (x - n, y - n) (capU tris) := by
      rw [he0, cnt_map_of_injective _ (shiftE_injective n)]
    have hg : ∀ i, i < n →
        cnt (x, y) ((wallFaces n (i, succIdx n i)).flatMap uEdges) =
        (if uLoopE n i = (x - n, y - n) then 1 else 0) := by
      intro i hi
      have hsi := succIdx_lt (by omega) hi
      rw [wallU6 n i (succIdx n i) hi hsi]
      rw [cnt_cons, cnt_cons, cnt_cons, cnt_cons, cnt_cons, cnt_cons, cnt_nil]
      rw [if_neg (show ¬(normE (i, succIdx n i) = (x, y)) by
            intro hcc
            have h1a : (normE (i, succIdx n i)).2 = y := congrArg Prod.snd hcc
            rw [normE_snd] at h1a
            omega),
          if_neg (show ¬((succIdx n i, n + succIdx n i) = (x, y)) by
            simp only [Prod.mk.injEq, not_and]; intro hc1; omega),
          if_neg (show ¬(((i : ℕ), n + succIdx n i) = (x, y)) by
            simp only [Prod.mk.injEq, not_and]; intro hc1; omega),
          if_neg (show ¬(((i : ℕ), n + i) = (x, y)) by
            simp only [Prod.mk.injEq, not_and]; intro hc1; omega)]
      have hiff : (shiftE n (normE (i, succIdx n i)) = (x, y)) ↔
          (normE (i, succIdx n i) = (x - n, y - n)) := by
        rw [he0]
        exact ⟨fun hh => shiftE_injective n hh, fun hh => by rw [hh]⟩
      simp only [uLoopE, hiff]
      omega
    by_cases hA : ∃ i0, i0 < n ∧ uLoopE n i0 = (x - n, y - n)
    · obtain ⟨i0, hi0, hei⟩ := hA
      right
      have hWs : ((List.range n).map fun i =>
          cnt (x, y) ((wallFaces n (i, succIdx n i)).flatMap uEdges)).sum = 1 := by
        refine sum_range_single_support _ n i0 1 hi0 ?_
        intro i hi
        rw [hg i hi]
        have hiff : (uLoopE n i = (x - n, y - n)) ↔ (i = i0) := by
          constructor
          · intro hcc; exact uLoopE_inj hn hi hi0 (by rw [hcc, hei])
          · intro hcc; rw [hcc, hei]
        simp [hiff]
      have hBv := hb i0 hi0
      rw [hei] at hBv
      rw [hB0, hT2, hBv, hWs]
    · push_neg at hA
      have hWs : ((List.range n).map fun i =>
          cnt (x, y) ((wallFaces n (i, succIdx n i)).flatMap uEdges)).sum = 0 := by
        refine sum_range_zero_support _ n ?_
        intro i hi
        rw [hg i hi, if_neg (hA i hi)]
      rw [hB0, hT2, hWs]
      by_cases hmem : ((x : ℕ) - n, y - n) ∈ capU tris
      · right
        rw [hc _ hmem (fun i hi => (hA i hi).symm)]
      · left
        have hz : cnt ((x : ℕ) - n, y - n) (capU tris) = 0 :=
          Nat.eq_zero_of_not_pos (fun hpos => hmem ((cnt_pos_iff_mem _ _).mp hpos))
        rw [hz]

theorem flatMap_wallFaces_length (K : ℕ) (bnd : List (ℕ × ℕ)) :
    (bnd.flatMap (wallFaces K)).length = 2 * bnd.length := by
  induction bnd with
  | nil => rfl
  | cons e t ih =>
    simp only [List.flatMap_cons, List.length_append, List.length_cons, ih, wallFaces]
    simp
    omega

theorem extrude_vertex_count (pts : List Point2) (tris : List Face)
    (bnd : List (ℕ × ℕ)) (H : ℚ) :
    (extrude pts tris bnd H).vertices.length = 2 * pts.length := by
  simp only [extrude, List.length_append, List.length_map]
  omega

theorem extrude_face_count (pts : List Point2) (tris : List Face)
    (bnd : List (ℕ × ℕ)) (H : ℚ) :
    (extrude pts tris bnd H).faces.length = 2 * tris.length + 2 * bnd.length := by
  simp only [extrude, List.length_append, List.length_map, flatMap_wallFaces_length]
  omega

/-- C1: for every valid simple closed polygon (a boundary of n ≥ 3 points
with a valid cap triangulation) and every height H > 0, the extruded mesh
is closed (every edge shared by exactly two faces), has vertex count
2 × (boundary points) and face count (faces of the two triangulated caps)
+ 2 × (boundary edges) wall triangles; in particular the square
(0,0)-(10,0)-(10,10)-(0,10) extruded with thickness 5 gives 8 vertices,
12 faces and positive volume 500. -/
theorem c1_extrusion_closed_counts (n : ℕ) (pts : List Point2) (tris : List Face)
    (H : ℚ) (hn : 3 ≤ n) (hpts : pts.length = n) (hval : capValidU n tris)
    (_hH : 0 < H) :
    isClosed (extrude pts tris (loopD 0 n) H) ∧
    (extrude pts tris (loopD 0 n) H).vertices.length = 2 * n ∧
    (extrude pts tris (loopD 0 n) H).faces.length = 2 * tris.length + 2 * n ∧
    (extrude squarePts squareTris (loopD 0 4) 5).vertices.length = 8 ∧
    (extrude squarePts squareTris (loopD 0 4) 5).faces.length = 12 ∧
    volume (extrude squarePts squareTris (loopD 0 4) 5) = 500 ∧
    0 < volume (extrude squarePts squareTris (loopD 0 4) 5) := by
  have hvol : volume (extrude squarePts squareTris (loopD 0 4) 5) = 500 := by
    norm_num [volume, signedVol6, extrude, squarePts, squareTris, loopD, succIdx,
      wallFaces, offFace, revFace, lift, detFace, det3, List.range_succ]
  refine ⟨extrude_closed n pts tris H hn hpts hval, ?_, ?_, ?_, ?_, hvol, ?_⟩
  · rw [extrude_vertex_count, hpts]
  · rw [extrude_face_count]
    simp [loopD]
  · rw [extrude_vertex_count]
    rfl
  · rw [extrude_face_count]
    rfl
  · rw [hvol]
    norm_num

theorem c1_extrusion_closed_counts_witness :
    isClosed (extrude squarePts squareTris (loopD 0 4) 5) ∧
    (extrude squarePts squareTris (loopD 0 4) 5).vertices.length = 2 * 4 ∧
    (extrude squarePts squareTris (loopD 0 4) 5).faces.length = 2 * squareTris.length + 2 * 4 ∧
    (extrude squarePts squareTris (loopD 0 4) 5).vertices.length = 8 ∧
    (extrude squarePts squareTris (loopD 0 4) 5).faces.length = 12 ∧
    volume (extrude squarePts squareTris (loopD 0 4) 5) = 500 ∧
    0 < volume (extrude squarePts squareTris (loopD 0 4) 5) :=
  c1_extrusion_closed_counts 4 squarePts squareTris 5 (by norm_num) rfl
    (by decide) (by norm_num)

/-! ### Cancellation of matched directed edges -/

theorem cnt_eq_count {α : Type} [DecidableEq α] (a : α) (l : List α) :
    cnt a l = l.count a := by
  induction l with
  | nil => rfl
  | cons b t ih =>
    rw [cnt_cons, List.count_cons, ih]
    by_cases h : b = a
    · simp [h]
      omega
    · simp [h]

theorem swapE_swapE (e : ℕ × ℕ) : swapE (swapE e) = e := rfl

theorem swapE_inj {a b : ℕ × ℕ} (h : swapE a = swapE b) : a = b := by
  have := congrArg swapE h
  rwa [swapE_swapE, swapE_swapE] at this

/-- Two edge lists with the same antisymmetric part of their counts have
the same sum under any antisymmetric weight. -/
theorem sum_map_eq_of_balanced (f : ℕ × ℕ → ℚ) (hf : ∀ e, f (swapE e) = - f e)
    (l B : List (ℕ × ℕ))
    (hbal : ∀ e, cnt e l + cnt (swapE e) B = cnt (swapE e) l + cnt e B) :
    (l.map f).sum = (B.map f).sum := by
  classical
  set S := (l ++ B ++ (l ++ B).map swapE).toFinset with hS
  have hmemS : ∀ a : ℕ × ℕ, a ∈ l ++ B → a ∈ S := by
    intro a ha
    rw [hS, List.mem_toFinset, List.mem_append]
    exact Or.inl ha
  have hclosed : ∀ a : ℕ × ℕ, a ∈ S → swapE a ∈ S := by
    intro a ha
    rw [hS, List.mem_toFinset, List.mem_append] at ha ⊢
    rcases ha with ha | ha
    · right
      rw [List.mem_map]
      exact ⟨a, ha, rfl⟩
    · left
      rw [List.mem_map] at ha
      obtain ⟨b, hb, hba⟩ := ha
      rw [← hba, swapE_swapE]
      exact hb
  have hsum : ∀ m : List (ℕ × ℕ), (∀ a ∈ m, a ∈ S) →
      (m.map f).sum = ∑ a ∈ S, (cnt a m : ℚ) * f a := by
    intro m hm
    have hsub : m.toFinset ⊆ S := fun a ha => hm a (List.mem_toFinset.mp ha)
    rw [Finset.sum_list_map_count,
      Finset.sum_subset hsub (fun a _ ha => by
        have hnm : a ∉ m := fun hmem => ha (List.mem_toFinset.mpr hmem)
        rw [← cnt_eq_count, cnt_eq_zero_of_not_mem
          (fun x hx hxa => hnm (by rw [← hxa]; exact hx))]
        exact zero_smul ℕ _)]
    refine Finset.sum_congr rfl (fun a _ => ?_)
    rw [← cnt_eq_count, nsmul_eq_mul]
  have hl : (l.map f).sum = ∑ a ∈ S, (cnt a l : ℚ) * f a :=
    hsum l (fun a ha => hmemS a (List.mem_append.mpr (Or.inl ha)))
  have hB : (B.map f).sum = ∑ a ∈ S, (cnt a B : ℚ) * f a :=
    hsum B (fun a ha => hmemS a (List.mem_append.mpr (Or.inr ha)))
  have key : ∑ a ∈ S, ((cnt a l : ℚ) - (cnt a B : ℚ)) * f a = 0 := by
    refine Finset.sum_involution (fun a _ => swapE a) ?_ ?_ (fun a ha => hclosed a ha) ?_
    · intro a _
      dsimp only
      have hb := hbal a
      have hb2 : (cnt a l : ℚ) - (cnt a B : ℚ) =
          (cnt (swapE a) l : ℚ) - (cnt (swapE a) B : ℚ) := by
        have hcast := congrArg (fun z : ℕ => (z : ℚ)) hb
        push_cast at hcast
        linarith
      rw [hf a, ← hb2]
      ring
    · intro a _ hne heq
      dsimp only at heq
      apply hne
      have hfa : f a = 0 := by
        have hfs := hf a
        rw [heq] at hfs
        linarith
      rw [hfa, mul_zero]
    · intro a ha
      dsimp only
      rfl
  rw [hl, hB]
  have hdist := Finset.sum_sub_distrib (s := S)
    (f := fun a => (cnt a l : ℚ) * f a) (g := fun a => (cnt a B : ℚ) * f a)
  rw [← sub_eq_zero]
  rw [← hdist]
  rw [← key]
  apply Finset.sum_congr rfl
  intro a _
  ring

theorem cnt_eq_zero_of_not_memN {α : Type} [DecidableEq α] {a : α} {l : List α}
    (h : a ∉ l) : cnt a l = 0 :=
  cnt_eq_zero_of_not_mem (fun x hx hxa => h (by rw [← hxa]; exact hx))

theorem capValidD_balanced {K : ℕ} {bnd : List (ℕ × ℕ)} {tris : List Face}
    (h : capValidD K bnd tris) :
    ∀ e, cnt e (capD tris) + cnt (swapE e) bnd = cnt (swapE e) (capD tris) + cnt e bnd := by
  intro e
  by_cases hm : e ∈ capD tris ++ bnd ++ (capD tris ++ bnd).map swapE
  · exact h.2.2 e hm
  · have hni1 : e ∉ capD tris := fun hx =>
      hm (List.mem_append.mpr (Or.inl (List.mem_append.mpr (Or.inl hx))))
    have hni2 : e ∉ bnd := fun hx =>
      hm (List.mem_append.mpr (Or.inl (List.mem_append.mpr (Or.inr hx))))
    have hni3 : swapE e ∉ capD tris := fun hx =>
      hm (List.mem_append.mpr (Or.inr (List.mem_map.mpr
        ⟨swapE e, List.mem_append.mpr (Or.inl hx), swapE_swapE e⟩)))
    have hni4 : swapE e ∉ bnd := fun hx =>
      hm (List.mem_append.mpr (Or.inr (List.mem_map.mpr
        ⟨swapE e, List.mem_append.mpr (Or.inr hx), swapE_swapE e⟩)))
    rw [cnt_eq_zero_of_not_memN hni1, cnt_eq_zero_of_not_memN hni2,
      cnt_eq_zero_of_not_memN hni3, cnt_eq_zero_of_not_memN hni4]

/-! ### Signed volume of an extruded prism -/

theorem det3_bottom (a b c : Point2) : det3 (lift 0 a) (lift 0 b) (lift 0 c) = 0 := by
  simp only [det3, lift]
  ring

theorem det3_top (H : ℚ) (a b c : Point2) :
    det3 (lift H a) (lift H b) (lift H c) = H * (cross a b + cross b c + cross c a) := by
  simp only [det3, lift, cross]
  ring

theorem det3_wall1 (H : ℚ) (u v : Point2) :
    det3 (lift 0 u) (lift 0 v) (lift H v) = H * cross u v := by
  simp only [det3, lift, cross]
  ring

theorem det3_wall2 (H : ℚ) (u v : Point2) :
    det3 (lift 0 u) (lift H v) (lift H u) = H * cross u v := by
  simp only [det3, lift, cross]
  ring

theorem det3_rev (a b c : Point3) : det3 a c b = - det3 a b c := by
  simp only [det3]
  ring

theorem extrude_getD_low (pts : List Point2) (tris : List Face) (bnd : List (ℕ × ℕ))
    (H : ℚ) {i : ℕ} (hi : i < pts.length) :
    (extrude pts tris bnd H).vertices.getD i (0, 0, 0) = lift 0 (ptAt pts i) := by
  show ((pts.map (lift 0) ++ pts.map (lift H)).getD i (0, 0, 0)) = _
  rw [List.getD_eq_getElem?_getD, List.getElem?_append_left (by simpa using hi),
    List.getElem?_map, List.getElem?_eq_getElem hi]
  simp [ptAt, List.getD_eq_getElem?_getD, List.getElem?_eq_getElem hi]

theorem extrude_getD_high (pts : List Point2) (tris : List Face) (bnd : List (ℕ × ℕ))
    (H : ℚ) {i : ℕ} (hi : i < pts.length) :
    (extrude pts tris bnd H).vertices.getD (pts.length + i) (0, 0, 0) = lift H (ptAt pts i) := by
  show ((pts.map (lift 0) ++ pts.map (lift H)).getD (pts.length + i) (0, 0, 0)) = _
  rw [List.getD_eq_getElem?_getD,
    List.getElem?_append_right (by simp : (pts.map (lift 0)).length ≤ pts.length + i)]
  simp [List.getElem?_map, List.getElem?_eq_getElem hi, ptAt, List.getD_eq_getElem?_getD]

theorem sum_map_flatMap {α β : Type} (f : β → ℚ) (g : α → List β) (l : List α) :
    ((l.flatMap g).map f).sum = (l.map fun x => ((g x).map f).sum).sum := by
  induction l with
  | nil => rfl
  | cons a t ih => simp [List.flatMap_cons, ih]

theorem sum_map_mul_left {α : Type} (c : ℚ) (f : α → ℚ) (l : List α) :
    (l.map fun x => c * f x).sum = c * (l.map f).sum := by
  induction l with
  | nil => simp
  | cons a t ih =>
    simp only [List.map_cons, List.sum_cons, ih]
    ring

theorem ptAt_append_low {outer hole : List Point2} {i : ℕ} (hi : i < outer.length) :
    ptAt (outer ++ hole) i = ptAt outer i := by
  simp [ptAt, List.getD_eq_getElem?_getD, List.getElem?_append_left hi]

theorem ptAt_append_high (outer hole : List Point2) (j : ℕ) :
    ptAt (outer ++ hole) (outer.length + j) = ptAt hole j := by
  simp [ptAt, List.getD_eq_getElem?_getD,
    List.getElem?_append_right (by omega : outer.length ≤ outer.length + j)]

theorem bottom_cap_det_sum (pts : List Point2) (tris : List Face) (bnd : List (ℕ × ℕ))
    (H : ℚ)
    (hidx : ∀ f ∈ tris, f.1 < pts.length ∧ f.2.1 < pts.length ∧ f.2.2 < pts.length) :
    ((tris.map revFace).map (detFace (extrude pts tris bnd H).vertices)).sum = 0 := by
  apply List.sum_eq_zero
  intro x hx
  rw [List.map_map, List.mem_map] at hx
  obtain ⟨fc, hfc, rfl⟩ := hx
  obtain ⟨h1, h2, h3⟩ := hidx fc hfc
  simp only [Function.comp, detFace, revFace]
  rw [extrude_getD_low pts tris bnd H h1, extrude_getD_low pts tris bnd H h3,
    extrude_getD_low pts tris bnd H h2, det3_bottom]

theorem top_cap_det_sum (pts : List Point2) (tris : List Face) (bnd : List (ℕ × ℕ))
    (H : ℚ)
    (hidx : ∀ f ∈ tris, f.1 < pts.length ∧ f.2.1 < pts.length ∧ f.2.2 < pts.length) :
    ((tris.map (offFace pts.length)).map (detFace (extrude pts tris bnd H).vertices)).sum =
      H * ((capD tris).map (crossAt pts)).sum := by
  rw [List.map_map]
  have hpt : ∀ fc ∈ tris,
      (detFace (extrude pts tris bnd H).vertices ∘ offFace pts.length) fc =
      H * (crossAt pts (fc.1, fc.2.1) + crossAt pts (fc.2.1, fc.2.2) +
           crossAt pts (fc.2.2, fc.1)) := by
    intro fc hfc
    obtain ⟨h1, h2, h3⟩ := hidx fc hfc
    simp only [Function.comp, detFace, offFace]
    rw [extrude_getD_high pts tris bnd H h1, extrude_getD_high pts tris bnd H h2,
      extrude_getD_high pts tris bnd H h3, det3_top]
    simp only [crossAt]
  rw [sum_map_congr_mem _ hpt, sum_map_mul_left]
  congr 1
  rw [capD, sum_map_flatMap]
  apply sum_map_congr_mem
  intro fc _
  simp only [dirEdges, List.map_cons, List.map_nil, List.sum_cons, List.sum_nil]
  ring

theorem wall_det_sum (pts : List Point2) (tris : List Face) (bnd : List (ℕ × ℕ))
    (H : ℚ) (hbnd : ∀ e ∈ bnd, e.1 < pts.length ∧ e.2 < pts.length) :
    ((bnd.flatMap (wallFaces pts.length)).map
        (detFace (extrude pts tris bnd H).vertices)).sum =
      2 * H * (bnd.map (crossAt pts)).sum := by
  rw [sum_map_flatMap]
  have hpt : ∀ e ∈ bnd,
      ((wallFaces pts.length e).map (detFace (extrude pts tris bnd H).vertices)).sum =
      2 * H * crossAt pts e := by
    intro e he
    obtain ⟨h1, h2⟩ := hbnd e he
    simp only [wallFaces, List.map_cons, List.map_nil, List.sum_cons, List.sum_nil, detFace]
    rw [extrude_getD_low pts tris bnd H h1, extrude_getD_low pts tris bnd H h2,
      extrude_getD_high pts tris bnd H h2, extrude_getD_high pts tris bnd H h1,
      det3_wall1, det3_wall2]
    simp only [crossAt]
    ring
  rw [sum_map_congr_mem _ hpt, sum_map_mul_left]

/-- The divergence-theorem volume of an extruded prism: six times the
signed volume is 3 H times the oriented boundary cross-product sum. -/
theorem extrude_signedVol6 (pts : List Point2) (tris : List Face) (bnd : List (ℕ × ℕ))
    (H : ℚ)
    (hidx : ∀ f ∈ tris, f.1 < pts.length ∧ f.2.1 < pts.length ∧ f.2.2 < pts.length)
    (hbnd : ∀ e ∈ bnd, e.1 < pts.length ∧ e.2 < pts.length)
    (hbal : ∀ e, cnt e (capD tris) + cnt (swapE e) bnd =
      cnt (swapE e) (capD tris) + cnt e bnd) :
    signedVol6 (extrude pts tris bnd H) = 3 * H * (bnd.map (crossAt pts)).sum := by
  have hcap := sum_map_eq_of_balanced (crossAt pts)
    (by intro e; simp only [crossAt, cross, swapE]; ring) _ _ hbal
  show ((tris.map revFace ++ tris.map (offFace pts.length) ++
      bnd.flatMap (wallFaces pts.length)).map
      (detFace (extrude pts tris bnd H).vertices)).sum = _
  rw [List.map_append, List.map_append, List.sum_append, List.sum_append,
    bottom_cap_det_sum pts tris bnd H hidx, top_cap_det_sum pts tris bnd H hidx,
    wall_det_sum pts tris bnd H hbnd, hcap]
  ring

theorem loop_cross_sum_outer (outer hole : List Point2) :
    ((loopD 0 outer.length).map (crossAt (outer ++ hole))).sum = shoelace2 outer := by
  rw [loopD_zero, List.map_map, shoelace2]
  apply sum_map_congr_mem
  intro i hi
  have hi2 : i < outer.length := List.mem_range.mp hi
  have hsi : succIdx outer.length i < outer.length := succIdx_lt (by omega) hi2
  simp only [Function.comp, crossAt]
  rw [ptAt_append_low hi2, ptAt_append_low hsi]

theorem loop_cross_sum_hole (outer hole : List Point2) :
    ((loopD outer.length hole.length).map (crossAt (outer ++ hole))).sum =
      shoelace2 hole := by
  rw [loopD, List.map_map, shoelace2]
  apply sum_map_congr_mem
  intro j hj
  simp only [Function.comp, crossAt]
  rw [ptAt_append_high, ptAt_append_high]

theorem cnt_map_eq_sum {α β : Type} [DecidableEq α] (e : α) (g : β → α) (l : List β) :
    cnt e (l.map g) = (l.map fun x => if g x = e then 1 else 0).sum := by
  induction l with
  | nil => rfl
  | cons b t ih => simp [cnt_cons, ih]

theorem outer_wall_idx {N M : ℕ} :
    ∀ fo ∈ (loopD 0 N).flatMap (wallFaces (N + M)), ∀ i ∈ faceIdx fo,
      i < N ∨ (N + M ≤ i ∧ i < N + M + N) := by
  intro fo hfo
  rw [List.mem_flatMap] at hfo
  obtain ⟨e, he, hfo⟩ := hfo
  rw [loopD, List.mem_map] at he
  obtain ⟨i0, hi0, rfl⟩ := he
  have hi0b : i0 < N := List.mem_range.mp hi0
  have hs : succIdx N i0 < N := succIdx_lt (by omega) hi0b
  simp only [wallFaces, List.mem_cons, List.not_mem_nil, or_false] at hfo
  intro i hi
  rcases hfo with h | h <;> rw [h] at hi <;>
    simp only [faceIdx, List.mem_cons, List.not_mem_nil, or_false] at hi <;>
    rcases hi with h2 | h2 | h2 <;> omega

theorem hole_wall_idx {N M : ℕ} :
    ∀ fh ∈ (loopD N M).flatMap (wallFaces (N + M)), ∀ i ∈ faceIdx fh,
      (N ≤ i ∧ i < N + M) ∨ (N + M + N ≤ i ∧ i < N + M + N + M) := by
  intro fh hfh
  rw [List.mem_flatMap] at hfh
  obtain ⟨e, he, hfh⟩ := hfh
  rw [loopD, List.mem_map] at he
  obtain ⟨j0, hj0, rfl⟩ := he
  have hj0b : j0 < M := List.mem_range.mp hj0
  have hs : succIdx M j0 < M := succIdx_lt (by omega) hj0b
  simp only [wallFaces, List.mem_cons, List.not_mem_nil, or_false] at hfh
  intro i hi
  rcases hfh with h | h <;> rw [h] at hi <;>
    simp only [faceIdx, List.mem_cons, List.not_mem_nil, or_false] at hi <;>
    rcases hi with h2 | h2 | h2 <;> omega

theorem hole_edge_bnd_cnt {N M : ℕ} (hN : 3 ≤ N) (hM : 3 ≤ M) {j : ℕ} (hj : j < M) :
    cnt ((N + j : ℕ), N + succIdx M j) (loopD 0 N ++ loopD N M) = 1 ∧
    cnt (swapE ((N + j : ℕ), N + succIdx M j)) (loopD 0 N ++ loopD N M) = 0 := by
  have hsj : succIdx M j < M := succIdx_lt (by omega) hj
  constructor
  · rw [cnt_append]
    have h1 : cnt ((N + j : ℕ), N + succIdx M j) (loopD 0 N) = 0 := by
      apply cnt_eq_zero_of_not_mem
      intro x hx
      rw [loopD, List.mem_map] at hx
      obtain ⟨i0, hi0, rfl⟩ := hx
      have hi0b : i0 < N := List.mem_range.mp hi0
      intro hcc
      have hc1 : 0 + i0 = N + j := congrArg Prod.fst hcc
      omega
    have h2 : cnt ((N + j : ℕ), N + succIdx M j) (loopD N M) = 1 := by
      rw [loopD, cnt_map_eq_sum]
      refine sum_range_single_support _ M j 1 hj ?_
      intro i hi
      have hiff : (((N + i : ℕ), N + succIdx M i) = ((N + j : ℕ), N + succIdx M j)) ↔
          i = j := by
        constructor
        · intro hcc
          have hc1 : N + i = N + j := congrArg Prod.fst hcc
          omega
        · intro hcc; rw [hcc]
      simp [hiff]
    rw [h1, h2]
  · rw [cnt_append]
    have h1 : cnt (swapE ((N + j : ℕ), N + succIdx M j)) (loopD 0 N) = 0 := by
      apply cnt_eq_zero_of_not_mem
      intro x hx
      rw [loopD, List.mem_map] at hx
      obtain ⟨i0, hi0, rfl⟩ := hx
      have hi0b : i0 < N := List.mem_range.mp hi0
      intro hcc
      have hc1 : 0 + i0 = N + succIdx M j := congrArg Prod.fst hcc
      omega
    have h2 : cnt (swapE ((N + j : ℕ), N + succIdx M j)) (loopD N M) = 0 := by
      apply cnt_eq_zero_of_not_mem
      intro x hx
      rw [loopD, List.mem_map] at hx
      obtain ⟨i0, hi0, rfl⟩ := hx
      have hi0b : i0 < M := List.mem_range.mp hi0
      intro hcc
      have hc1 : N + i0 = N + succIdx M j := congrArg Prod.fst hcc
      have hc2 : N + succIdx M i0 = N + j := congrArg Prod.snd hcc
      simp only [succIdx] at hc1 hc2
      split at hc1 <;> split at hc2 <;> omega
    rw [h1, h2]

theorem bnd_idx_bounded {N M : ℕ} :
    ∀ e ∈ loopD 0 N ++ loopD N M, e.1 < N + M ∧ e.2 < N + M := by
  intro e he
  rw [List.mem_append] at he
  rcases he with he | he <;> rw [loopD, List.mem_map] at he <;>
    obtain ⟨i0, hi0, rfl⟩ := he <;> have hb := List.mem_range.mp hi0
  · have hs : succIdx N i0 < N := succIdx_lt (by omega) hb
    constructor <;> simp <;> omega
  · have hs : succIdx M i0 < M := succIdx_lt (by omega) hb
    constructor <;> simp <;> omega

/-- C2: for every polygon with one hole strictly inside its outer
boundary (rendered as: outer boundary counter-clockwise, hole boundary
clockwise and of strictly smaller area, cap triangulation valid for the
two-loop boundary) and every height H > 0, the extruded solid has two
independent wall rings over disjoint vertex index ranges, its cap
triangulation excludes the hole's interior (each hole boundary edge lies
on the cap's boundary: covered by exactly one cap triangle, in the hole's
orientation), and its net volume is strictly positive and equals
outer area × H − hole area × H. -/
theorem c2_extrusion_with_hole (N M : ℕ) (outer hole : List Point2) (tris : List Face)
    (H : ℚ) (hN : 3 ≤ N) (hM : 3 ≤ M) (hno : outer.length = N) (hnh : hole.length = M)
    (hval : capValidD (N + M) (loopD 0 N ++ loopD N M) tris)
    (hH : 0 < H) (hAo : 0 < shoelace2 outer) (hAh : shoelace2 hole < 0)
    (hsub : - shoelace2 hole < shoelace2 outer) :
    (extrude (outer ++ hole) tris (loopD 0 N ++ loopD N M) H).faces =
      (tris.map revFace ++ tris.map (offFace (N + M))) ++
      ((loopD 0 N).flatMap (wallFaces (N + M)) ++
       (loopD N M).flatMap (wallFaces (N + M))) ∧
    ((loopD 0 N).flatMap (wallFaces (N + M))).length = 2 * N ∧
    ((loopD N M).flatMap (wallFaces (N + M))).length = 2 * M ∧
    (∀ fo ∈ (loopD 0 N).flatMap (wallFaces (N + M)),
      ∀ fh ∈ (loopD N M).flatMap (wallFaces (N + M)),
      ∀ i, i ∈ faceIdx fo → i ∉ faceIdx fh) ∧
    (∀ j, j < M → cnt ((N + j : ℕ), N + succIdx M j) (capD tris) = 1 ∧
      cnt (swapE ((N + j : ℕ), N + succIdx M j)) (capD tris) = 0) ∧
    volume (extrude (outer ++ hole) tris (loopD 0 N ++ loopD N M) H) =
      (shoelace2 outer / 2) * H - ((- shoelace2 hole) / 2) * H ∧
    0 < volume (extrude (outer ++ hole) tris (loopD 0 N ++ loopD N M) H) := by
  have hlen : (outer ++ hole).length = N + M := by
    rw [List.length_append, hno, hnh]
  have hvol : volume (extrude (outer ++ hole) tris (loopD 0 N ++ loopD N M) H) =
      (shoelace2 outer / 2) * H - ((- shoelace2 hole) / 2) * H := by
    rw [volume, extrude_signedVol6 _ _ _ _ ?hidx ?hbnd (capValidD_balanced hval)]
    case hidx =>
      intro f hf
      have := hval.1 f hf
      rw [hlen]
      exact ⟨this.1, this.2.1, this.2.2.1⟩
    case hbnd =>
      intro e he
      rw [hlen]
      exact bnd_idx_bounded e he
    rw [List.map_append, List.sum_append]
    have h1 := loop_cross_sum_outer outer hole
    have h2 := loop_cross_sum_hole outer hole
    rw [hno] at h1
    rw [hno, hnh] at h2
    rw [h1, h2]
    ring
  refine ⟨?_, ?_, ?_, ?_, ?_, hvol, ?_⟩
  · show (tris.map revFace ++ tris.map (offFace (outer ++ hole).length) ++
      (loopD 0 N ++ loopD N M).flatMap (wallFaces (outer ++ hole).length)) = _
    rw [hlen, List.flatMap_append, List.append_assoc]
  · rw [flatMap_wallFaces_length]
    simp [loopD]
  · rw [flatMap_wallFaces_length]
    simp [loopD]
  · intro fo hfo fh hfh i hio hih
    have h1 := outer_wall_idx fo hfo i hio
    have h2 := hole_wall_idx fh hfh i hih
    omega
  · intro j hj
    have hb := capValidD_balanced hval ((N + j : ℕ), N + succIdx M j)
    obtain ⟨hb1, hb2⟩ := hole_edge_bnd_cnt hN hM hj
    rw [hb1, hb2] at hb
    have hpos : 0 < cnt ((N + j : ℕ), N + succIdx M j) (capD tris) := by omega
    have hmem := (cnt_pos_iff_mem _ _).mp hpos
    have h1 : cnt ((N + j : ℕ), N + succIdx M j) (capD tris) = 1 := hval.2.1 _ hmem
    refine ⟨h1, ?_⟩
    omega
  · have hv2 : volume (extrude (outer ++ hole) tris (loopD 0 N ++ loopD N M) H) =
        (shoelace2 outer + shoelace2 hole) * H / 2 := by
      rw [hvol]
      ring
    rw [hv2]
    have hpos : 0 < (shoelace2 outer + shoelace2 hole) * H :=
      mul_pos (by linarith) hH
    linarith

theorem c2_extrusion_with_hole_witness :
    (extrude (squarePts ++ holeSq) annulusTris (loopD 0 4 ++ loopD 4 4) 5).faces =
      (annulusTris.map revFace ++ annulusTris.map (offFace (4 + 4))) ++
      ((loopD 0 4).flatMap (wallFaces (4 + 4)) ++
       (loopD 4 4).flatMap (wallFaces (4 + 4))) ∧
    ((loopD 0 4).flatMap (wallFaces (4 + 4))).length = 2 * 4 ∧
    ((loopD 4 4).flatMap (wallFaces (4 + 4))).length = 2 * 4 ∧
    (∀ fo ∈ (loopD 0 4).flatMap (wallFaces (4 + 4)),
      ∀ fh ∈ (loopD 4 4).flatMap (wallFaces (4 + 4)),
      ∀ i, i ∈ faceIdx fo → i ∉ faceIdx fh) ∧
    (∀ j, j < 4 → cnt ((4 + j : ℕ), 4 + succIdx 4 j) (capD annulusTris) = 1 ∧
      cnt (swapE ((4 + j : ℕ), 4 + succIdx 4 j)) (capD annulusTris) = 0) ∧
    volume (extrude (squarePts ++ holeSq) annulusTris (loopD 0 4 ++ loopD 4 4) 5) =
      (shoelace2 squarePts / 2) * 5 - ((- shoelace2 holeSq) / 2) * 5 ∧
    0 < volume (extrude (squarePts ++ holeSq) annulusTris (loopD 0 4 ++ loopD 4 4) 5) :=
  c2_extrusion_with_hole 4 4 squarePts holeSq annulusTris 5
    (by norm_num) (by norm_num) rfl rfl (by decide) (by norm_num)
    (by norm_num [shoelace2, squarePts, ptAt, succIdx, cross, List.range_succ])
    (by norm_num [shoelace2, holeSq, ptAt, succIdx, cross, List.range_succ])
    (by norm_num [shoelace2, squarePts, holeSq, ptAt, succIdx, cross, List.range_succ])

/-! ### Normal repair: winding propagation is stable -/

theorem revFace_revFace (f : Face) : revFace (revFace f) = f := rfl

theorem mem_dirEdges_rev (e : ℕ × ℕ) (f : Face) :
    e ∈ dirEdges (revFace f) ↔ swapE e ∈ dirEdges f := by
  obtain ⟨a, b, c⟩ := f
  obtain ⟨u, v⟩ := e
  simp only [dirEdges, revFace, swapE, List.mem_cons, List.not_mem_nil, or_false,
    Prod.mk.injEq]
  tauto

theorem mem_uEdges_rev (e : ℕ × ℕ) (f : Face) :
    e ∈ uEdges (revFace f) ↔ e ∈ uEdges f := by
  obtain ⟨a, b, c⟩ := f
  simp only [uEdges, revFace, dirEdges, List.map_cons, List.map_nil, List.mem_cons,
    List.not_mem_nil, or_false]
  rw [normE_swap a c, normE_swap c b, normE_swap b a]
  tauto

theorem sameDir_iff (f g : Face) :
    sameDir f g = true ↔ ∃ e, e ∈ dirEdges f ∧ e ∈ dirEdges g := by
  simp [sameDir, List.any_eq_true]

theorem shareEdge_iff (f g : Face) :
    shareEdge f g = true ↔ ∃ e, e ∈ uEdges f ∧ e ∈ uEdges g := by
  simp [shareEdge, List.any_eq_true]

theorem sameDir_rev_rev (p c : Face) :
    sameDir (revFace p) (revFace c) = sameDir p c := by
  rw [Bool.eq_iff_iff, sameDir_iff, sameDir_iff]
  constructor
  · rintro ⟨e, h1, h2⟩
    exact ⟨swapE e, (mem_dirEdges_rev e p).mp h1, (mem_dirEdges_rev e c).mp h2⟩
  · rintro ⟨e, h1, h2⟩
    refine ⟨swapE e, ?_, ?_⟩
    · rw [mem_dirEdges_rev, swapE_swapE]; exact h1
    · rw [mem_dirEdges_rev, swapE_swapE]; exact h2

theorem sameDir_rev_left (p c : Face) :
    sameDir (revFace p) c = sameDir p (revFace c) := by
  conv_lhs => rw [← revFace_revFace c]
  rw [sameDir_rev_rev]

theorem needFlip_flip_child (p c : Face) (h : needFlip p c = true) :
    needFlip p (revFace c) = false := by
  rw [needFlip] at h ⊢
  rw [revFace_revFace]
  have h2 : sameDir p (revFace c) = false := by
    rcases hb : sameDir p (revFace c) with _ | _
    · rfl
    · rw [hb] at h; simp at h
  rw [h2, Bool.false_and]

theorem needFlip_rev_rev (p c : Face) :
    needFlip (revFace p) (revFace c) = needFlip p c := by
  rw [needFlip, needFlip, sameDir_rev_rev, revFace_revFace, sameDir_rev_left]

theorem dirEdges_d0 : dirEdges (0, 0, 0) = [(0, 0), (0, 0), (0, 0)] := rfl

theorem needFlip_left_d0 (c : Face) : needFlip (0, 0, 0) c = false := by
  have hs : ∀ y : Face, sameDir (0, 0, 0) y = decide ((0, 0) ∈ dirEdges y) := by
    intro y
    rw [sameDir, dirEdges_d0]
    simp
  rw [needFlip, hs, hs]
  have hiff : ((0, 0) ∈ dirEdges (revFace c)) ↔ ((0, 0) ∈ dirEdges c) :=
    mem_dirEdges_rev (0, 0) c
  rw [decide_eq_decide.mpr hiff, Bool.and_not_self]

theorem needFlip_right_d0 (p : Face) : needFlip p (0, 0, 0) = false := by
  rw [needFlip]
  have h : revFace ((0 : ℕ), (0 : ℕ), (0 : ℕ)) = (0, 0, 0) := rfl
  rw [h, Bool.and_not_self]

theorem getD_set_self {α : Type} {l : List α} {i : ℕ} (h : i < l.length) (v d : α) :
    (l.set i v).getD i d = v := by
  simp [List.getD_eq_getElem?_getD, List.getElem?_set_self, h]

theorem getD_set_ne {α : Type} {l : List α} {i j : ℕ} (h : i ≠ j) (v d : α) :
    (l.set i v).getD j d = l.getD j d := by
  simp [List.getD_eq_getElem?_getD, List.getElem?_set_ne h]

theorem applyForest_length (L : List (ℕ × Option ℕ)) (fs : List Face) :
    (applyForest L fs).length = fs.length := by
  induction L generalizing fs with
  | nil => rfl
  | cons hd rest ih =>
    obtain ⟨c, p⟩ := hd
    cases p with
    | none => exact ih fs
    | some pp =>
      simp only [applyForest]
      split
      · rw [ih, List.length_set]
      · rw [ih]

theorem applyForest_pointwise (L : List (ℕ × Option ℕ)) (fs : List Face) (i : ℕ) :
    (applyForest L fs).getD i (0, 0, 0) = fs.getD i (0, 0, 0) ∨
    (applyForest L fs).getD i (0, 0, 0) = revFace (fs.getD i (0, 0, 0)) := by
  induction L generalizing fs with
  | nil => exact Or.inl rfl
  | cons hd rest ih =>
    obtain ⟨c, p⟩ := hd
    cases p with
    | none => exact ih fs
    | some pp =>
      simp only [applyForest]
      split
      · rcases ih (fs.set c (revFace (fs.getD c (0, 0, 0)))) with h | h <;> rw [h]
        · by_cases hci : c = i
          · subst hci
            by_cases hl : c < fs.length
            · rw [getD_set_self hl]
              exact Or.inr rfl
            · rw [List.getD_eq_default _ _ (by rw [List.length_set]; omega),
                List.getD_eq_default _ _ (by omega)]
              exact Or.inl rfl
          · rw [getD_set_ne hci]
            exact Or.inl rfl
        · by_cases hci : c = i
          · subst hci
            by_cases hl : c < fs.length
            · rw [getD_set_self hl, revFace_revFace]
              exact Or.inl rfl
            · rw [List.getD_eq_default _ _ (by rw [List.length_set]; omega)]
              exact Or.inr (by rw [List.getD_eq_default _ _ (by omega)])
          · rw [getD_set_ne hci]
            exact Or.inr rfl
      · exact ih fs

theorem WFL_fst_not_done {done : List ℕ} {L : List (ℕ × Option ℕ)} (h : WFL done L) :
    ∀ en ∈ L, en.1 ∉ done := by
  induction h with
  | nil => intro en hen; simp at hen
  | seed done c rest hc _ _ ih =>
    intro en hen
    rcases List.mem_cons.mp hen with h | h
    · rw [h]; exact hc
    · intro hd
      exact ih en h (List.mem_cons.mpr (Or.inr hd))
  | child done c p rest _ hc _ _ ih =>
    intro en hen
    rcases List.mem_cons.mp hen with h | h
    · rw [h]; exact hc
    · intro hd
      exact ih en h (List.mem_cons.mpr (Or.inr hd))

theorem WFL_nodup {done : List ℕ} {L : List (ℕ × Option ℕ)} (h : WFL done L) :
    (L.map Prod.fst).Nodup := by
  induction h with
  | nil => exact List.nodup_nil
  | seed done c rest _ hr _ ih => exact List.Nodup.cons hr ih
  | child done c p rest _ _ hr _ ih => exact List.Nodup.cons hr ih

theorem applyForest_done_fixed {done : List ℕ} {L : List (ℕ × Option ℕ)} (h : WFL done L) :
    ∀ fs : List Face, ∀ i ∈ done, (applyForest L fs).getD i (0, 0, 0) = fs.getD i (0, 0, 0) := by
  induction h with
  | nil => intro fs i _; rfl
  | seed done c rest _ _ _ ih =>
    intro fs i hi
    exact ih fs i (List.mem_cons.mpr (Or.inr hi))
  | child done c p rest _ hc _ _ ih =>
    intro fs i hi
    simp only [applyForest]
    have hne : c ≠ i := fun hcc => hc (hcc ▸ hi)
    split
    · rw [ih _ i (List.mem_cons.mpr (Or.inr hi)), getD_set_ne hne]
    · rw [ih _ i (List.mem_cons.mpr (Or.inr hi))]

/-- After winding propagation, every child is consistent with its parent. -/
theorem applyForest_consistent {done : List ℕ} {L : List (ℕ × Option ℕ)} (h : WFL done L) :
    ∀ fs : List Face, ∀ c p : ℕ, (c, some p) ∈ L →
      needFlip ((applyForest L fs).getD p (0, 0, 0))
        ((applyForest L fs).getD c (0, 0, 0)) = false := by
  induction h with
  | nil => intro fs c p hm; simp at hm
  | seed done c0 rest _ _ _ ih =>
    intro fs c p hm
    rcases List.mem_cons.mp hm with h | h
    · exact absurd (congrArg Prod.snd h) (by simp)
    · exact ih fs c p h
  | child done c0 p0 rest hp0 hc0 _ hrest ih =>
    intro fs c p hm
    rcases List.mem_cons.mp hm with h | h
    · have hc : c = c0 := by
        have := congrArg Prod.fst h
        simpa using this
      have hp : p = p0 := by
        have := congrArg Prod.snd h
        simpa using this
      subst hc
      subst hp
      simp only [applyForest]
      have hpc : c ≠ p := fun hcc => hc0 (hcc ▸ hp0)
      split
      case isTrue hflip =>
        rw [applyForest_done_fixed hrest _ p (List.mem_cons.mpr (Or.inr hp0)),
          applyForest_done_fixed hrest _ c (List.mem_cons.mpr (Or.inl rfl)),
          getD_set_ne hpc]
        by_cases hl : c < fs.length
        · rw [getD_set_self hl]
          exact needFlip_flip_child _ _ hflip
        · have hcd : (fs.set c (revFace (fs.getD c (0, 0, 0)))).getD c (0, 0, 0) =
              (0, 0, 0) :=
            List.getD_eq_default _ _ (by rw [List.length_set]; omega)
          rw [hcd]
          exact needFlip_right_d0 _
      case isFalse hflip =>
        rw [applyForest_done_fixed hrest _ p (List.mem_cons.mpr (Or.inr hp0)),
          applyForest_done_fixed hrest _ c (List.mem_cons.mpr (Or.inl rfl))]
        exact Bool.not_eq_true _ ▸ (by simpa using hflip)
    · simp only [applyForest]
      split <;> exact ih _ c p h

/-- Winding propagation is the identity when every child is already
consistent with its parent. -/
theorem applyForest_id (L : List (ℕ × Option ℕ)) (fs : List Face)
    (h : ∀ c p : ℕ, (c, some p) ∈ L →
      needFlip (fs.getD p (0, 0, 0)) (fs.getD c (0, 0, 0)) = false) :
    applyForest L fs = fs := by
  induction L with
  | nil => rfl
  | cons hd rest ih =>
    obtain ⟨c, p⟩ := hd
    cases p with
    | none => exact ih (fun c p hm => h c p (List.mem_cons.mpr (Or.inr hm)))
    | some pp =>
      simp only [applyForest]
      rw [if_neg (by rw [h c pp (List.mem_cons.mpr (Or.inl rfl))]; simp)]
      exact ih (fun c p hm => h c p (List.mem_cons.mpr (Or.inr hm)))

theorem bfs_vis_mono (adj : ℕ → ℕ → Bool) (n : ℕ) :
    ∀ (fuel : ℕ) (q : List (ℕ × Option ℕ)) (vis : List ℕ),
    ∀ x ∈ vis, x ∈ (bfs adj n fuel q vis).2 := by
  intro fuel
  induction fuel with
  | zero => intro q vis x hx; exact hx
  | succ fuel ih =>
    intro q vis x hx
    cases q with
    | nil => exact hx
    | cons hd t =>
      obtain ⟨c, p⟩ := hd
      simp only [bfs]
      split
      · exact ih t vis x hx
      · exact ih _ (c :: vis) x (List.mem_cons.mpr (Or.inr hx))

theorem bfs_fst_not_vis (adj : ℕ → ℕ → Bool) (n : ℕ) :
    ∀ (fuel : ℕ) (q : List (ℕ × Option ℕ)) (vis : List ℕ),
    ∀ en ∈ (bfs adj n fuel q vis).1, en.1 ∉ vis := by
  intro fuel
  induction fuel with
  | zero => intro q vis en hen; simp [bfs] at hen
  | succ fuel ih =>
    intro q vis en hen
    cases q with
    | nil => simp [bfs] at hen
    | cons hd t =>
      obtain ⟨c, p⟩ := hd
      simp only [bfs] at hen
      split at hen
      · exact ih t vis en hen
      · rcases List.mem_cons.mp hen with h | h
        · rw [h]
          assumption
        · intro hv
          exact ih _ (c :: vis) en h (List.mem_cons.mpr (Or.inr hv))

theorem bfs_wfl (adj : ℕ → ℕ → Bool) (n : ℕ) :
    ∀ (fuel : ℕ) (q : List (ℕ × Option ℕ)) (vis : List ℕ),
    (∀ c p, (c, some p) ∈ q → p ∈ vis) →
    ∀ K, WFL (bfs adj n fuel q vis).2 K → WFL vis ((bfs adj n fuel q vis).1 ++ K) := by
  intro fuel
  induction fuel with
  | zero => intro q vis _ K hK; exact hK
  | succ fuel ih =>
    intro q vis hq K hK
    cases q with
    | nil => exact hK
    | cons hd t =>
      obtain ⟨c, p⟩ := hd
      by_cases hc : c ∈ vis
      · simp only [bfs, if_pos hc] at hK ⊢
        exact ih t vis (fun c' p' h => hq c' p' (List.mem_cons.mpr (Or.inr h))) K hK
      · simp only [bfs, if_neg hc] at hK ⊢
        have hq2 : ∀ c' p',
            (c', some p') ∈ t ++ ((List.range n).filter (adj c)).map (fun j => (j, some c)) →
            p' ∈ c :: vis := by
          intro c' p' h
          rcases List.mem_append.mp h with h | h
          · exact List.mem_cons.mpr (Or.inr (hq c' p' (List.mem_cons.mpr (Or.inr h))))
          · rw [List.mem_map] at h
            obtain ⟨j, _, hj⟩ := h
            have hp' : c = p' := by
              have := congrArg Prod.snd hj
              simpa using this
            rw [← hp']
            exact List.mem_cons.mpr (Or.inl rfl)
        have hrec := ih _ (c :: vis) hq2 K hK
        have hnotin : c ∉ ((bfs adj n fuel
            (t ++ ((List.range n).filter (adj c)).map fun j => (j, some c)) (c :: vis)).1 ++
              K).map Prod.fst := by
          rw [List.map_append, List.mem_append]
          rintro (h | h)
          · rw [List.mem_map] at h
            obtain ⟨en, hen, hfst⟩ := h
            have hnv := bfs_fst_not_vis adj n fuel _ (c :: vis) en hen
            rw [hfst] at hnv
            exact hnv (List.mem_cons.mpr (Or.inl rfl))
          · rw [List.mem_map] at h
            obtain ⟨en, hen, hfst⟩ := h
            have hnd := WFL_fst_not_done hK en hen
            rw [hfst] at hnd
            exact hnd (bfs_vis_mono adj n fuel _ (c :: vis) c (List.mem_cons.mpr (Or.inl rfl)))
        rw [List.cons_append]
        cases p with
        | none => exact WFL.seed vis c _ hc hnotin hrec
        | some pp =>
          exact WFL.child vis c pp _ (hq c pp (List.mem_cons.mpr (Or.inl rfl))) hc hnotin hrec

theorem buildTrees_wfl (adj : ℕ → ℕ → Bool) (n : ℕ) :
    ∀ (seeds : List ℕ) (vis : List ℕ),
    WFL vis ((buildTrees adj n seeds vis).1.flatten) := by
  intro seeds
  induction seeds with
  | nil => intro vis; exact WFL.nil vis
  | cons s rest ih =>
    intro vis
    by_cases hs : s ∈ vis
    · simp only [buildTrees, if_pos hs]
      exact ih vis
    · simp only [buildTrees, if_neg hs, List.flatten_cons]
      exact bfs_wfl adj n _ [(s, none)] vis (fun c p h => by simp at h) _ (ih _)

theorem bfs_parent_own (adj : ℕ → ℕ → Bool) (n : ℕ) :
    ∀ (fuel : ℕ) (q : List (ℕ × Option ℕ)) (vis : List ℕ) (P : List ℕ),
    (∀ c p, (c, some p) ∈ q → p ∈ P) →
    ∀ c p, (c, some p) ∈ (bfs adj n fuel q vis).1 →
      p ∈ P ∨ p ∈ (bfs adj n fuel q vis).1.map Prod.fst := by
  intro fuel
  induction fuel with
  | zero => intro q vis P _ c p hm; simp [bfs] at hm
  | succ fuel ih =>
    intro q vis P hq c p hm
    cases q with
    | nil => simp [bfs] at hm
    | cons hd t =>
      obtain ⟨c0, p0⟩ := hd
      by_cases hc : c0 ∈ vis
      · simp only [bfs, if_pos hc] at hm ⊢
        exact ih t vis P (fun c' p' h => hq c' p' (List.mem_cons.mpr (Or.inr h))) c p hm
      · simp only [bfs, if_neg hc] at hm ⊢
        rcases List.mem_cons.mp hm with h | h
        · have hp0 : p0 = some p := by
            have := congrArg Prod.snd h
            simpa using this.symm
          have hc0 : c0 = c := by
            have := congrArg Prod.fst h
            simpa using this.symm
          left
          exact hq c0 p (by rw [hp0]; exact List.mem_cons.mpr (Or.inl rfl))
        · have hq2 : ∀ c' p',
              (c', some p') ∈ t ++ ((List.range n).filter (adj c0)).map (fun j => (j, some c0)) →
              p' ∈ c0 :: P := by
            intro c' p' hh
            rcases List.mem_append.mp hh with hh | hh
            · exact List.mem_cons.mpr (Or.inr (hq c' p' (List.mem_cons.mpr (Or.inr hh))))
            · rw [List.mem_map] at hh
              obtain ⟨j, _, hj⟩ := hh
              have hp' : c0 = p' := by
                have := congrArg Prod.snd hj
                simpa using this
              rw [← hp']
              exact List.mem_cons.mpr (Or.inl rfl)
          rcases ih _ (c0 :: vis) (c0 :: P) hq2 c p h with h2 | h2
          · rcases List.mem_cons.mp h2 with h3 | h3
            · right
              rw [h3, List.map_cons]
              exact List.mem_cons.mpr (Or.inl rfl)
            · exact Or.inl h3
          · right
            rw [List.map_cons]
            exact List.mem_cons.mpr (Or.inr h2)

theorem buildTrees_parent_own (adj : ℕ → ℕ → Bool) (n : ℕ) :
    ∀ (seeds : List ℕ) (vis : List ℕ),
    ∀ t ∈ (buildTrees adj n seeds vis).1, ∀ c p, (c, some p) ∈ t → p ∈ treeIdxs t := by
  intro seeds
  induction seeds with
  | nil => intro vis t ht; simp [buildTrees] at ht
  | cons s rest ih =>
    intro vis t ht
    by_cases hs : s ∈ vis
    · simp only [buildTrees, if_pos hs] at ht
      exact ih vis t ht
    · simp only [buildTrees, if_neg hs] at ht
      rcases List.mem_cons.mp ht with h | h
      · intro c p hm
        rw [h] at hm
        rcases bfs_parent_own adj n _ [(s, none)] vis []
          (fun c' p' hh => by simp at hh) c p hm with h2 | h2
        · simp at h2
        · rw [h, treeIdxs]
          exact h2
      · exact ih _ t h

theorem forest_flatten_wfl (fs : List Face) : WFL [] (forest fs).flatten :=
  buildTrees_wfl (adjB fs) fs.length (List.range fs.length) []

theorem forest_parent_own (fs : List Face) :
    ∀ t ∈ forest fs, ∀ c p, (c, some p) ∈ t → p ∈ treeIdxs t :=
  buildTrees_parent_own (adjB fs) fs.length (List.range fs.length) []

theorem forest_idx_nodup (fs : List Face) :
    (((forest fs).map treeIdxs).flatten).Nodup := by
  have h := WFL_nodup (forest_flatten_wfl fs)
  have h2 : ((forest fs).flatten.map Prod.fst) =
      ((forest fs).map treeIdxs).flatten := by
    rw [List.map_flatten]
    rfl
  rwa [h2] at h

theorem forest_pair (fs : List Face) :
    ∀ t ∈ forest fs, ∀ c p, (c, some p) ∈ (forest fs).flatten →
      (c ∈ treeIdxs t ↔ p ∈ treeIdxs t) := by
  intro t ht c p hcp
  rw [List.mem_flatten] at hcp
  obtain ⟨t', ht', hmem⟩ := hcp
  have hc' : c ∈ treeIdxs t' := List.mem_map.mpr ⟨(c, some p), hmem, rfl⟩
  have hp' : p ∈ treeIdxs t' := forest_parent_own fs t' ht' c p hmem
  have hnd := forest_idx_nodup fs
  rw [List.nodup_flatten] at hnd
  by_cases heq : treeIdxs t = treeIdxs t'
  · rw [heq]
    exact ⟨fun _ => hp', fun _ => hc'⟩
  · have hdisj : (treeIdxs t).Disjoint (treeIdxs t') := by
      refine List.Pairwise.forall (fun a b h => List.Disjoint.symm h) hnd.2
        (List.mem_map.mpr ⟨t, ht, rfl⟩) (List.mem_map.mpr ⟨t', ht', rfl⟩) heq
    constructor
    · intro hct
      exact (hdisj hct hc').elim
    · intro hpt
      exact (hdisj hpt hp').elim

theorem forest_trees_disj (fs : List Face) :
    ∀ t1 ∈ forest fs, ∀ t2 ∈ forest fs,
      treeIdxs t1 = treeIdxs t2 ∨ ∀ i ∈ treeIdxs t1, i ∉ treeIdxs t2 := by
  intro t1 ht1 t2 ht2
  by_cases heq : treeIdxs t1 = treeIdxs t2
  · exact Or.inl heq
  · right
    have hnd := forest_idx_nodup fs
    rw [List.nodup_flatten] at hnd
    have hdisj : (treeIdxs t1).Disjoint (treeIdxs t2) :=
      List.Pairwise.forall (fun a b h => List.Disjoint.symm h) hnd.2
        (List.mem_map.mpr ⟨t1, ht1, rfl⟩) (List.mem_map.mpr ⟨t2, ht2, rfl⟩) heq
    intro i hi1 hi2
    exact hdisj hi1 hi2

theorem getD_range_map {α : Type} {g : ℕ → α} {n i : ℕ} (h : i < n) (d : α) :
    ((List.range n).map g).getD i d = g i := by
  simp [List.getD_eq_getElem?_getD, List.getElem?_map, List.getElem?_range h]

theorem flipIdxs_length (idxs : List ℕ) (fs : List Face) :
    (flipIdxs idxs fs).length = fs.length := by
  simp [flipIdxs]

theorem flipIdxs_getD_mem {idxs : List ℕ} {fs : List Face} {i : ℕ}
    (hm : i ∈ idxs) (hl : i < fs.length) :
    (flipIdxs idxs fs).getD i (0, 0, 0) = revFace (fs.getD i (0, 0, 0)) := by
  rw [flipIdxs, getD_range_map hl, if_pos hm]

theorem flipIdxs_getD_out {idxs : List ℕ} {fs : List Face} {i : ℕ}
    (h : ¬i < fs.length) : (flipIdxs idxs fs).getD i (0, 0, 0) = (0, 0, 0) :=
  List.getD_eq_default _ _ (by rw [flipIdxs_length]; omega)

theorem flipIdxs_getD_not_mem {idxs : List ℕ} {fs : List Face} {i : ℕ}
    (hm : i ∉ idxs) :
    (flipIdxs idxs fs).getD i (0, 0, 0) = fs.getD i (0, 0, 0) := by
  by_cases hl : i < fs.length
  · rw [flipIdxs, getD_range_map hl, if_neg hm]
  · rw [flipIdxs_getD_out hl, List.getD_eq_default _ _ (by omega)]

theorem volFlip_cons (vs : List Point3) (t : List (ℕ × Option ℕ))
    (rest : List (List (ℕ × Option ℕ))) (fs : List Face) :
    volFlip vs (t :: rest) fs = volFlip vs rest
      (if compVol vs fs (treeIdxs t) < 0 then flipIdxs (treeIdxs t) fs else fs) := rfl

theorem volFlip_length (vs : List Point3) (trees : List (List (ℕ × Option ℕ))) :
    ∀ fs : List Face, (volFlip vs trees fs).length = fs.length := by
  induction trees with
  | nil => intro fs; rfl
  | cons t rest ih =>
    intro fs
    rw [volFlip_cons]
    split
    · rw [ih, flipIdxs_length]
    · rw [ih]

theorem flipIdxs_pointwise (idxs : List ℕ) (fs : List Face) (i : ℕ) :
    (flipIdxs idxs fs).getD i (0, 0, 0) = fs.getD i (0, 0, 0) ∨
    (flipIdxs idxs fs).getD i (0, 0, 0) = revFace (fs.getD i (0, 0, 0)) := by
  by_cases hm : i ∈ idxs
  · by_cases hl : i < fs.length
    · exact Or.inr (flipIdxs_getD_mem hm hl)
    · rw [flipIdxs_getD_out hl, List.getD_eq_default _ _ (by omega)]
      exact Or.inl rfl
  · exact Or.inl (flipIdxs_getD_not_mem hm)

theorem volFlip_pointwise (vs : List Point3) (trees : List (List (ℕ × Option ℕ))) :
    ∀ (fs : List Face) (i : ℕ),
    (volFlip vs trees fs).getD i (0, 0, 0) = fs.getD i (0, 0, 0) ∨
    (volFlip vs trees fs).getD i (0, 0, 0) = revFace (fs.getD i (0, 0, 0)) := by
  induction trees with
  | nil => intro fs i; exact Or.inl rfl
  | cons t rest ih =>
    intro fs i
    rw [volFlip_cons]
    split
    · rcases ih (flipIdxs (treeIdxs t) fs) i with h | h <;> rw [h] <;>
        rcases flipIdxs_pointwise (treeIdxs t) fs i with h2 | h2 <;> rw [h2]
      · exact Or.inl rfl
      · exact Or.inr rfl
      · exact Or.inr rfl
      · exact Or.inl (revFace_revFace _)
    · exact ih fs i

theorem det3_diag (a : Point3) : det3 a a a = 0 := by
  simp only [det3]
  ring

theorem detFace_d0 (vs : List Point3) : detFace vs ((0 : ℕ), (0 : ℕ), (0 : ℕ)) = 0 :=
  det3_diag _

theorem detFace_rev (vs : List Point3) (f : Face) :
    detFace vs (revFace f) = - detFace vs f := by
  simp only [detFace, revFace]
  exact det3_rev _ _ _

theorem sum_map_neg {α : Type} (f : α → ℚ) (l : List α) :
    (l.map fun x => - f x).sum = - (l.map f).sum := by
  induction l with
  | nil => simp
  | cons a t ih =>
    simp only [List.map_cons, List.sum_cons, ih]
    ring

theorem compVol_flip_self (vs : List Point3) (fs : List Face) (idxs : List ℕ) :
    compVol vs (flipIdxs idxs fs) idxs = - compVol vs fs idxs := by
  rw [compVol, compVol, ← sum_map_neg]
  apply sum_map_congr_mem
  intro i hi
  by_cases hl : i < fs.length
  · rw [flipIdxs_getD_mem hi hl, detFace_rev]
  · rw [flipIdxs_getD_out hl, List.getD_eq_default _ _ (by omega), detFace_d0]
    norm_num

theorem compVol_untouched (vs : List Point3) (fs : List Face) (idxs idxs2 : List ℕ)
    (hdisj : ∀ i ∈ idxs2, i ∉ idxs) :
    compVol vs (flipIdxs idxs fs) idxs2 = compVol vs fs idxs2 := by
  rw [compVol, compVol]
  apply sum_map_congr_mem
  intro i hi
  rw [flipIdxs_getD_not_mem (hdisj i hi)]

theorem volFlip_needFlip_preserved (vs : List Point3)
    (trees : List (List (ℕ × Option ℕ))) (L : List (ℕ × Option ℕ))
    (hpair : ∀ t ∈ trees, ∀ c p : ℕ, (c, some p) ∈ L →
      (c ∈ treeIdxs t ↔ p ∈ treeIdxs t)) :
    ∀ fs : List Face,
    (∀ c p : ℕ, (c, some p) ∈ L →
      needFlip (fs.getD p (0, 0, 0)) (fs.getD c (0, 0, 0)) = false) →
    ∀ c p : ℕ, (c, some p) ∈ L →
      needFlip ((volFlip vs trees fs).getD p (0, 0, 0))
        ((volFlip vs trees fs).getD c (0, 0, 0)) = false := by
  induction trees with
  | nil => intro fs h c p hm; exact h c p hm
  | cons t rest ih =>
    intro fs h c p hm
    rw [volFlip_cons]
    refine ih (fun t' ht' c' p' hm' =>
      hpair t' (List.mem_cons.mpr (Or.inr ht')) c' p' hm') _ ?_ c p hm
    intro c' p' hm'
    by_cases hv : compVol vs fs (treeIdxs t) < 0
    · rw [if_pos hv]
      have hcp := hpair t (List.mem_cons.mpr (Or.inl rfl)) c' p' hm'
      by_cases hcm : c' ∈ treeIdxs t
      · have hpm : p' ∈ treeIdxs t := hcp.mp hcm
        by_cases hpl : p' < fs.length
        · by_cases hcl : c' < fs.length
          · rw [flipIdxs_getD_mem hpm hpl, flipIdxs_getD_mem hcm hcl, needFlip_rev_rev]
            exact h c' p' hm'
          · rw [flipIdxs_getD_out hcl]
            exact needFlip_right_d0 _
        · rw [flipIdxs_getD_out hpl]
          exact needFlip_left_d0 _
      · have hpm : p' ∉ treeIdxs t := fun hp => hcm (hcp.mpr hp)
        rw [flipIdxs_getD_not_mem hpm, flipIdxs_getD_not_mem hcm]
        exact h c' p' hm'
    · rw [if_neg hv]
      exact h c' p' hm'

theorem volFlip_preserve_nonneg (vs : List Point3) (idxs : List ℕ) :
    ∀ (rest : List (List (ℕ × Option ℕ))) (cur : List Face),
    (∀ t2 ∈ rest, treeIdxs t2 = idxs ∨ ∀ i ∈ treeIdxs t2, i ∉ idxs) →
    0 ≤ compVol vs cur idxs → 0 ≤ compVol vs (volFlip vs rest cur) idxs := by
  intro rest
  induction rest with
  | nil => intro cur _ h; exact h
  | cons t2 r ih =>
    intro cur hd h
    rw [volFlip_cons]
    by_cases hv : compVol vs cur (treeIdxs t2) < 0
    · rw [if_pos hv]
      rcases hd t2 (List.mem_cons.mpr (Or.inl rfl)) with heq | hdisj
      · exfalso
        rw [heq] at hv
        linarith
      · refine ih (flipIdxs (treeIdxs t2) cur)
          (fun t3 ht3 => hd t3 (List.mem_cons.mpr (Or.inr ht3))) ?_
        rw [compVol_untouched vs cur (treeIdxs t2) idxs
          (fun i hi hit => hdisj i hit hi)]
        exact h
    · rw [if_neg hv]
      exact ih cur (fun t3 ht3 => hd t3 (List.mem_cons.mpr (Or.inr ht3))) h

theorem volFlip_nonneg (vs : List Point3) :
    ∀ (trees : List (List (ℕ × Option ℕ))) (fs : List Face),
    (∀ t1 ∈ trees, ∀ t2 ∈ trees,
      treeIdxs t1 = treeIdxs t2 ∨ ∀ i ∈ treeIdxs t1, i ∉ treeIdxs t2) →
    ∀ t ∈ trees, 0 ≤ compVol vs (volFlip vs trees fs) (treeIdxs t) := by
  intro trees
  induction trees with
  | nil => intro fs _ t ht; simp at ht
  | cons t0 rest ih =>
    intro fs hd t ht
    rw [volFlip_cons]
    rcases List.mem_cons.mp ht with h | h
    · rw [h]
      refine volFlip_preserve_nonneg vs (treeIdxs t0) rest _
        (fun t2 ht2 => hd t2 (List.mem_cons.mpr (Or.inr ht2)) t0
          (List.mem_cons.mpr (Or.inl rfl))) ?_
      by_cases hv : compVol vs fs (treeIdxs t0) < 0
      · rw [if_pos hv, compVol_flip_self]
        linarith
      · rw [if_neg hv]
        linarith
    · exact ih _ (fun t1 h1 t2 h2 => hd t1 (List.mem_cons.mpr (Or.inr h1)) t2
        (List.mem_cons.mpr (Or.inr h2))) t h

theorem volFlip_id (vs : List Point3) :
    ∀ (trees : List (List (ℕ × Option ℕ))) (fs : List Face),
    (∀ t ∈ trees, 0 ≤ compVol vs fs (treeIdxs t)) → volFlip vs trees fs = fs := by
  intro trees
  induction trees with
  | nil => intro fs _; rfl
  | cons t0 rest ih =>
    intro fs h
    rw [volFlip_cons,
      if_neg (not_lt.mpr (h t0 (List.mem_cons.mpr (Or.inl rfl))))]
    exact ih fs (fun t ht => h t (List.mem_cons.mpr (Or.inr ht)))

theorem shareEdge_rev_left (f g : Face) : shareEdge (revFace f) g = shareEdge f g := by
  rw [Bool.eq_iff_iff, shareEdge_iff, shareEdge_iff]
  constructor <;> rintro ⟨e, h1, h2⟩
  · exact ⟨e, (mem_uEdges_rev e f).mp h1, h2⟩
  · exact ⟨e, (mem_uEdges_rev e f).mpr h1, h2⟩

theorem shareEdge_rev_right (f g : Face) : shareEdge f (revFace g) = shareEdge f g := by
  rw [Bool.eq_iff_iff, shareEdge_iff, shareEdge_iff]
  constructor <;> rintro ⟨e, h1, h2⟩
  · exact ⟨e, h1, (mem_uEdges_rev e g).mp h2⟩
  · exact ⟨e, h1, (mem_uEdges_rev e g).mpr h2⟩

theorem adjB_congr {fs2 fs : List Face}
    (hpt : ∀ i, fs2.getD i (0, 0, 0) = fs.getD i (0, 0, 0) ∨
      fs2.getD i (0, 0, 0) = revFace (fs.getD i (0, 0, 0))) :
    adjB fs2 = adjB fs := by
  funext i j
  rw [adjB, adjB]
  rcases hpt i with h | h <;> rcases hpt j with h2 | h2 <;> rw [h, h2] <;>
    first
      | rfl
      | rw [shareEdge_rev_left, shareEdge_rev_right]
      | rw [shareEdge_rev_right]
      | rw [shareEdge_rev_left]

theorem forest_congr {fs2 fs : List Face} (hlen : fs2.length = fs.length)
    (hpt : ∀ i, fs2.getD i (0, 0, 0) = fs.getD i (0, 0, 0) ∨
      fs2.getD i (0, 0, 0) = revFace (fs.getD i (0, 0, 0))) :
    forest fs2 = forest fs := by
  rw [forest, forest, adjB_congr hpt, hlen]

/-- C4: normal repair is idempotent — applying the winding/normal repair
operation to an already-repaired mesh changes nothing. -/
theorem c4_fix_normals_idempotent (M : Mesh) :
    fix_normals (fix_normals M) = fix_normals M := by
  obtain ⟨vs, fs0⟩ := M
  have hlen2 : (volFlip vs (forest fs0) (applyForest (forest fs0).flatten fs0)).length =
      fs0.length := by
    rw [volFlip_length, applyForest_length]
  have hpt : ∀ i,
      (volFlip vs (forest fs0) (applyForest (forest fs0).flatten fs0)).getD i (0, 0, 0) =
        fs0.getD i (0, 0, 0) ∨
      (volFlip vs (forest fs0) (applyForest (forest fs0).flatten fs0)).getD i (0, 0, 0) =
        revFace (fs0.getD i (0, 0, 0)) := by
    intro i
    rcases volFlip_pointwise vs (forest fs0) (applyForest (forest fs0).flatten fs0) i
      with h | h <;>
      rcases applyForest_pointwise (forest fs0).flatten fs0 i with h2 | h2 <;>
      rw [h, h2]
    · exact Or.inl rfl
    · exact Or.inr rfl
    · exact Or.inr rfl
    · exact Or.inl (revFace_revFace _)
  have hcons2 := volFlip_needFlip_preserved vs (forest fs0) (forest fs0).flatten
    (forest_pair fs0) (applyForest (forest fs0).flatten fs0)
    (fun c p hm => applyForest_consistent (forest_flatten_wfl fs0) fs0 c p hm)
  have hnn := volFlip_nonneg vs (forest fs0) (applyForest (forest fs0).flatten fs0)
    (forest_trees_disj fs0)
  have h1 : fix_normals ⟨vs, fs0⟩ =
      ⟨vs, volFlip vs (forest fs0) (applyForest (forest fs0).flatten fs0)⟩ := rfl
  rw [h1]
  show Mesh.mk vs
      (volFlip vs
        (forest (volFlip vs (forest fs0) (applyForest (forest fs0).flatten fs0)))
        (applyForest
          (forest (volFlip vs (forest fs0) (applyForest (forest fs0).flatten fs0))).flatten
          (volFlip vs (forest fs0) (applyForest (forest fs0).flatten fs0)))) =
    Mesh.mk vs (volFlip vs (forest fs0) (applyForest (forest fs0).flatten fs0))
  rw [forest_congr hlen2 hpt,
    applyForest_id _ _ (fun c p hm => hcons2 c p hm),
    volFlip_id vs _ _ hnn]

end App
